import Mathlib

/-!
Verification of the family relationship graph engine: the kinship graph
builder, the breadth-first shortest path search (`findRelationshipPath`)
and the relationship classifier (`deriveComplexRelationship`), translated
from `src/types.ts`.
-/

namespace Family

/-- Gender of a person, from `src/types.ts`. -/
inductive Gender
  | male | female | other | unknown
  deriving DecidableEq, Repr

/-- A person record, from `src/types.ts`. -/
structure Person where
  id : String
  name : String
  gender : Gender
  birthDate : Option String := none
  profilePicUrl : Option String := none
  deriving DecidableEq, Repr

/-- The four direct relationship kinds, from `src/types.ts`. -/
inductive DirectRelationshipType
  | FATHER | MOTHER | SPOUSE | SIBLING
  deriving DecidableEq, Repr

/-- A stored directed relationship record, from `src/types.ts`. -/
structure StoredRelationship where
  id : String
  fromPersonId : String
  toPersonId : String
  type : DirectRelationshipType
  deriving DecidableEq, Repr

/-- One segment of a relationship path, from `src/types.ts`.  The optional
fields carry the label and relationship id of the edge to the next segment. -/
structure PathSegment where
  person : Person
  relationshipToNext : Option String := none
  relationshipId : Option String := none
  deriving DecidableEq, Repr

/-- One adjacency entry `{ personId, relationshipLabel, relationshipId }`
as pushed by the graph builder inside `findRelationshipPath`. -/
structure AdjEntry where
  personId : String
  relationshipLabel : String
  relationshipId : String
  deriving DecidableEq, Repr

/-- Model of JavaScript `String.prototype.startsWith`. -/
def strStartsWith (s pre : String) : Bool :=
  pre.toList.isPrefixOf s.toList

/-- Bool-valued infix test on character lists (the pattern occurs as a
contiguous run), used to model JavaScript `String.prototype.includes`. -/
def hasInfix (pat : List Char) : List Char → Bool
  | [] => pat.isEmpty
  | c :: rest => pat.isPrefixOf (c :: rest) || hasInfix pat rest

/-- Model of JavaScript `String.prototype.includes`. -/
def strIncludes (s pat : String) : Bool :=
  hasInfix pat.toList s.toList

/-- Model of `label?.startsWith(pre)`: an absent label yields `false`. -/
def optStartsWith (l : Option String) (pre : String) : Bool :=
  match l with
  | some s => strStartsWith s pre
  | none => false

/-- Model of `label?.includes(pat)`: an absent label yields `false`. -/
def optIncludes (l : Option String) (pat : String) : Bool :=
  match l with
  | some s => strIncludes s pat
  | none => false

/-- `people.find(p => p.id === pid)`. -/
def findPerson (people : List Person) (pid : String) : Option Person :=
  people.find? (fun p => p.id == pid)

/-- The two adjacency pushes performed for one relationship by the `switch`
in `findRelationshipPath` (forward edge first, then reverse edge), each
tagged with the map key it is pushed under. -/
def relEdges (fromPerson : Person) (rel : StoredRelationship) : List (String × AdjEntry) :=
  match rel.type with
  | .FATHER =>
      [(rel.fromPersonId, ⟨rel.toPersonId, "is father of", rel.id⟩),
       (rel.toPersonId, ⟨rel.fromPersonId, "is child of (father: " ++ fromPerson.name ++ ")", rel.id⟩)]
  | .MOTHER =>
      [(rel.fromPersonId, ⟨rel.toPersonId, "is mother of", rel.id⟩),
       (rel.toPersonId, ⟨rel.fromPersonId, "is child of (mother: " ++ fromPerson.name ++ ")", rel.id⟩)]
  | .SPOUSE =>
      [(rel.fromPersonId, ⟨rel.toPersonId, "is spouse of", rel.id⟩),
       (rel.toPersonId, ⟨rel.fromPersonId, "is spouse of", rel.id⟩)]
  | .SIBLING =>
      [(rel.fromPersonId, ⟨rel.toPersonId, "is sibling of", rel.id⟩),
       (rel.toPersonId, ⟨rel.fromPersonId, "is sibling of", rel.id⟩)]

/-- Adjacency contribution of one relationship: a relationship referencing a
non-existent person id on either end is silently skipped (`continue`). -/
def relAdjEntries (people : List Person) (rel : StoredRelationship) : List (String × AdjEntry) :=
  match findPerson people rel.fromPersonId, findPerson people rel.toPersonId with
  | some fromPerson, some _ => relEdges fromPerson rel
  | _, _ => []

/-- The adjacency map built by `findRelationshipPath`, read at key `pid`:
entries are pushed in input-relationship order, forward edge before reverse
edge; a key never pushed to (or absent) reads as the empty list, matching
`adj.get(personId) || []`. -/
def buildAdj (people : List Person) (relationships : List StoredRelationship)
    (pid : String) : List AdjEntry :=
  (((relationships.map (relAdjEntries people)).flatten).filter
      (fun e => e.1 == pid)).map (fun e => e.2)

/-- Path extension performed when a neighbor is enqueued: the last segment is
rewritten to carry the traversed label and relationship id, and a fresh final
segment holding the neighbor is appended. -/
def updatePath (currentPath : List PathSegment) (en : AdjEntry)
    (neighborPerson : Person) : List PathSegment :=
  match currentPath.getLast? with
  | none => [{ person := neighborPerson }]
  | some lastSeg =>
      currentPath.dropLast ++
        [{ lastSeg with relationshipToNext := some en.relationshipLabel,
                        relationshipId := some en.relationshipId },
         { person := neighborPerson }]

/-- The inner `for (const neighbor of neighbors)` loop of the BFS: each not
yet visited neighbor id is marked visited (before the person lookup), and if
its person record is found the extended path is enqueued, preserving neighbor
order.  Returns the list of new queue entries and the grown visited set. -/
def processNeighbors (people : List Person) (currentPath : List PathSegment) :
    List AdjEntry → List String → List (String × List PathSegment) × List String
  | [], visited => ([], visited)
  | en :: rest, visited =>
    if visited.contains en.personId then
      processNeighbors people currentPath rest visited
    else
      let visited' := en.personId :: visited
      match findPerson people en.personId with
      | none => processNeighbors people currentPath rest visited'
      | some per =>
          let r := processNeighbors people currentPath rest visited'
          ((en.personId, updatePath currentPath en per) :: r.1, r.2)

/-- The `while (queue.length > 0)` loop of the BFS, with an explicit fuel
parameter bounding the number of iterations (the dequeued head is returned
when it is the target, otherwise its neighbors are processed and appended to
the back of the queue). -/
def bfsLoop (endPersonId : String) (people : List Person)
    (adj : String → List AdjEntry) :
    Nat → List (String × List PathSegment) → List String → Option (List PathSegment)
  | 0, _, _ => none
  | _ + 1, [], _ => none
  | fuel + 1, (personId, currentPath) :: rest, visited =>
    if personId == endPersonId then some currentPath
    else
      let r := processNeighbors people currentPath (adj personId) visited
      bfsLoop endPersonId people adj fuel (rest ++ r.1) r.2

/-- `findRelationshipPath` from `src/types.ts`, with the BFS loop run on an
explicit fuel budget. -/
def findRelationshipPathFuel (fuel : Nat) (startPersonId endPersonId : String)
    (people : List Person) (relationships : List StoredRelationship) :
    Option (List PathSegment) :=
  if startPersonId == endPersonId then
    match findPerson people startPersonId with
    | some person => some [{ person }]
    | none => none
  else
    match findPerson people startPersonId with
    | none => none
    | some startNode =>
        bfsLoop endPersonId people (buildAdj people relationships) fuel
          [(startPersonId, [{ person := startNode }])] [startPersonId]

/-- `findRelationshipPath(startPersonId, endPersonId, people, relationships)`:
the fuel `people.length + 1` is shown sufficient below (the loop dequeues at
most one entry per distinct person id). -/
def findRelationshipPath (startPersonId endPersonId : String)
    (people : List Person) (relationships : List StoredRelationship) :
    Option (List PathSegment) :=
  findRelationshipPathFuel (people.length + 1) startPersonId endPersonId people relationships

/-- The `gender === 'male' ? m : gender === 'female' ? f : n` conditional used
throughout the classifier. -/
def genderTerm (g : Gender) (m f n : String) : String :=
  match g with
  | .male => m
  | .female => f
  | _ => n

/-- `deriveComplexRelationship(path, allPeople)` from `src/types.ts`. -/
def deriveComplexRelationship (path : Option (List PathSegment))
    (_allPeople : List Person) : Option String :=
  match path with
  | none => none
  | some p =>
    match p with
    | [] => none
    | [_] => none
    | p1 :: p2 :: rest =>
      let startPerson := p1.person
      let endPerson := ((p1 :: p2 :: rest).getLastD p1).person
      match rest with
      | [] =>
        match p1.relationshipToNext with
        | none => none
        | some l =>
          if l == "" then none
          else if strStartsWith l "is child of" then
            some (startPerson.name ++ " is child of " ++ endPerson.name ++ ".")
          else if strIncludes l "is sibling of" then
            some (startPerson.name ++ " and " ++ endPerson.name ++ " are siblings.")
          else
            some (startPerson.name ++ " " ++ l ++ " " ++ endPerson.name ++ ".")
      | [_] =>
        let l1 := p1.relationshipToNext
        let l2 := p2.relationshipToNext
        if (optIncludes l1 "is father of" || optIncludes l1 "is mother of") &&
           (optIncludes l2 "is father of" || optIncludes l2 "is mother of") then
          some (startPerson.name ++ " is " ++
            genderTerm startPerson.gender "grandfather" "grandmother" "grandparent" ++
            " of " ++ endPerson.name ++ ".")
        else if optStartsWith l1 "is child of" && optStartsWith l2 "is child of" then
          some (startPerson.name ++ " is " ++
            genderTerm startPerson.gender "grandson" "granddaughter" "grandchild" ++
            " of " ++ endPerson.name ++ ".")
        else if (optIncludes l1 "is father of" || optIncludes l1 "is mother of") &&
                optIncludes l2 "is spouse of" then
          some (startPerson.name ++ " is " ++
            genderTerm startPerson.gender "father-in-law" "mother-in-law" "parent-in-law" ++
            " of " ++ endPerson.name ++ ".")
        else if optIncludes l1 "is spouse of" && optStartsWith l2 "is child of" then
          some (startPerson.name ++ " is " ++
            genderTerm startPerson.gender "son-in-law" "daughter-in-law" "child-in-law" ++
            " of " ++ endPerson.name ++ ".")
        else if optIncludes l1 "is sibling of" &&
                (optIncludes l2 "is father of" || optIncludes l2 "is mother of") then
          some (startPerson.name ++ " is " ++
            genderTerm startPerson.gender "uncle" "aunt" "aunt/uncle" ++
            " of " ++ endPerson.name ++ ".")
        else if optStartsWith l1 "is child of" && optIncludes l2 "is sibling of" then
          some (startPerson.name ++ " is " ++
            genderTerm startPerson.gender "nephew" "niece" "nephew/niece" ++
            " of " ++ endPerson.name ++ ".")
        else none
      | _ :: _ :: _ => none

/-! Spec-level notions used to state the claims. -/

/-- The person ids along a path, in order. -/
def pathIds (p : List PathSegment) : List String :=
  p.map (fun seg => seg.person.id)

/-- The neighbor ids reachable in one hop from `u` in an adjacency map. -/
def adjIds (adj : String → List AdjEntry) (u : String) : List String :=
  (adj u).map (fun e => e.personId)

/-- One traversal edge of the adjacency graph. -/
abbrev Edge (adj : String → List AdjEntry) (u v : String) : Prop :=
  v ∈ adjIds adj u

/-- `ReachN adj n u w`: there is a walk of exactly `n` adjacency edges from
`u` to `w`. -/
inductive ReachN (adj : String → List AdjEntry) : Nat → String → String → Prop
  | refl (u : String) : ReachN adj 0 u u
  | step {u v w : String} {n : Nat} (h : Edge adj u v) (hr : ReachN adj n v w) :
      ReachN adj (n + 1) u w

/-- `Chain people adj p s u`: `p` is a path from `s` to `u` built exactly the
way the search grows queue paths, one `updatePath` extension per edge. -/
inductive Chain (people : List Person) (adj : String → List AdjEntry) :
    List PathSegment → String → String → Prop
  | single (per : Person) (u : String) (h : findPerson people u = some per) :
      Chain people adj [{ person := per }] u u
  | snoc (p : List PathSegment) (s u : String) (en : AdjEntry) (per : Person)
      (hp : Chain people adj p s u) (hen : en ∈ adj u)
      (hper : findPerson people en.personId = some per) :
      Chain people adj (updatePath p en per) s en.personId

/-- Structural well-formedness of an output path: every non-final segment
carries exactly the label and relationship id of an adjacency edge leading to
the next segment's person, and the final segment carries neither. -/
def SegChainOk (adj : String → List AdjEntry) : List PathSegment → Prop
  | [] => True
  | [seg] => seg.relationshipToNext = none ∧ seg.relationshipId = none
  | seg :: next :: rest =>
      (∃ en ∈ adj seg.person.id, en.personId = next.person.id ∧
        seg.relationshipToNext = some en.relationshipLabel ∧
        seg.relationshipId = some en.relationshipId) ∧
      SegChainOk adj (next :: rest)

/-- The classifier's test for a parent-of hop label. -/
def labelIsParent (l : Option String) : Bool :=
  optIncludes l "is father of" || optIncludes l "is mother of"

/-- The classifier's test for a child-of hop label. -/
def labelIsChild (l : Option String) : Bool :=
  optStartsWith l "is child of"

/-- The classifier's test for a spouse-of hop label. -/
def labelIsSpouse (l : Option String) : Bool :=
  optIncludes l "is spouse of"

/-- The classifier's test for a sibling-of hop label. -/
def labelIsSibling (l : Option String) : Bool :=
  optIncludes l "is sibling of"

/-- The four abstract hop-label kinds of the classifier's pattern table. -/
inductive HopKind
  | parentOf | childOf | spouseOf | siblingOf
  deriving DecidableEq, Repr

/-- `l` is classified as kind `k` and as none of the other three kinds by the
classifier's label tests. -/
def labelKindExact (l : Option String) (k : HopKind) : Prop :=
  labelIsParent l = (k == HopKind.parentOf) ∧
  labelIsChild l = (k == HopKind.childOf) ∧
  labelIsSpouse l = (k == HopKind.spouseOf) ∧
  labelIsSibling l = (k == HopKind.siblingOf)

instance (l : Option String) (k : HopKind) : Decidable (labelKindExact l k) := by
  unfold labelKindExact
  infer_instance

/-- The pattern table of §4.3 of the specification: the gendered kinship term
for a pair of consecutive hop kinds, when one is listed. -/
def complexTermFor (k1 k2 : HopKind) (g : Gender) : Option String :=
  match k1, k2 with
  | .parentOf, .parentOf => some (genderTerm g "grandfather" "grandmother" "grandparent")
  | .childOf, .childOf => some (genderTerm g "grandson" "granddaughter" "grandchild")
  | .parentOf, .spouseOf => some (genderTerm g "father-in-law" "mother-in-law" "parent-in-law")
  | .spouseOf, .childOf => some (genderTerm g "son-in-law" "daughter-in-law" "child-in-law")
  | .siblingOf, .parentOf => some (genderTerm g "uncle" "aunt" "aunt/uncle")
  | .childOf, .siblingOf => some (genderTerm g "nephew" "niece" "nephew/niece")
  | _, _ => none

/-! Concrete families used to instantiate hypotheses of the theorems below. -/

/-- Concrete person: Ann. -/
def wAnn : Person := { id := "A", name := "Ann", gender := .female }

/-- Concrete person: Bob. -/
def wBob : Person := { id := "B", name := "Bob", gender := .male }

/-- Concrete person: Cal. -/
def wCal : Person := { id := "C", name := "Cal", gender := .male }

/-- Concrete person set (three people). -/
def wPeople : List Person := [wAnn, wBob, wCal]

/-- Concrete relationships: Bob is father of Ann; Ann and Cal are siblings. -/
def wRels : List StoredRelationship :=
  [⟨"r1", "B", "A", .FATHER⟩, ⟨"r2", "A", "C", .SIBLING⟩]

/-- Concrete person set for the tie-break counterexample (two people). -/
def cPeople : List Person := [wAnn, wBob]

/-- Concrete relationships for the tie-break counterexample: a SIBLING
relationship listed before a FATHER relationship between the same two
people. -/
def cRels : List StoredRelationship :=
  [⟨"s1", "A", "B", .SIBLING⟩, ⟨"f1", "A", "B", .FATHER⟩]

/-- Number of person ids not yet visited. -/
def unseenCount (people : List Person) (visited : List String) : Nat :=
  ((people.map Person.id).toFinset \ visited.toFinset).card

/-- Termination measure of the BFS loop: queue length plus number of person
ids not yet visited.  Each iteration strictly decreases it. -/
def bfsMeasure (people : List Person)
    (queue : List (String × List PathSegment)) (visited : List String) : Nat :=
  queue.length + unseenCount people visited

/-- Invariant of the BFS loop, holding between iterations: every queue entry
carries a duplicate-free search path from the start to its id built over the
adjacency, of minimal hop count; the queue spans at most two consecutive
levels; every visited id is either still queued or has all its neighbors
visited; the target, once visited, is queued. -/
structure BfsInv (people : List Person) (adj : String → List AdjEntry)
    (s e : String) (Q : List (String × List PathSegment)) (V : List String) :
    Prop where
  start_mem : s ∈ V
  q_sub : ∀ x ∈ Q, x.1 ∈ V
  chain : ∀ x ∈ Q, Chain people adj x.2 s x.1
  ids_sub : ∀ x ∈ Q, ∀ i ∈ pathIds x.2, i ∈ V
  ids_nodup : ∀ x ∈ Q, (pathIds x.2).Nodup
  minimal : ∀ x ∈ Q, ∀ m, ReachN adj m s x.1 → x.2.length ≤ m + 1
  levels : ∃ d qa qb, Q = qa ++ qb ∧ (∀ x ∈ qa, x.2.length = d + 1) ∧
      (∀ x ∈ qb, x.2.length = d + 2)
  visited_proc : ∀ v ∈ V, v ∈ Q.map Prod.fst ∨ ∀ en ∈ adj v, en.personId ∈ V
  target_q : e ∈ V → e ∈ Q.map Prod.fst
  v_nodup : V.Nodup
  v_ids : ∀ v ∈ V, v ∈ people.map Person.id

/-- `IdxWalk adj u is w`: following, from `u`, the adjacency entries at the
successive positions listed in `is` reaches `w`.  The positions name the
edges by their insertion rank in the builder's adjacency lists, so they
induce the search's deterministic exploration order. -/
inductive IdxWalk (adj : String → List AdjEntry) : String → List Nat → String → Prop
  | nil (u : String) : IdxWalk adj u [] u
  | cons {u w : String} {i : Nat} {is : List Nat} {en : AdjEntry}
      (h : (adj u)[i]? = some en) (hw : IdxWalk adj en.personId is w) :
      IdxWalk adj u (i :: is) w

/-- Discovery order of the breadth-first search on index walks: fewer hops
first, and among walks of equal hop count the one whose sequence of
adjacency-list positions is lexicographically smaller is discovered
first. -/
def walkLt (a b : List Nat) : Prop :=
  a.length < b.length ∨ (a.length = b.length ∧ List.Lex (· < ·) a b)

/-- `IChain people adj p is s u`: the search path `p` from `s` to `u` was
grown, `updatePath` step by `updatePath` step, along the adjacency entries at
the positions listed in `is`. -/
inductive IChain (people : List Person) (adj : String → List AdjEntry) :
    List PathSegment → List Nat → String → String → Prop
  | single (per : Person) (u : String) (h : findPerson people u = some per) :
      IChain people adj [{ person := per }] [] u u
  | snoc (p : List PathSegment) (is : List Nat) (s u : String) (i : Nat)
      (en : AdjEntry) (per : Person)
      (hp : IChain people adj p is s u) (hi : (adj u)[i]? = some en)
      (hper : findPerson people en.personId = some per) :
      IChain people adj (updatePath p en per) (is ++ [i]) s en.personId

/-- Ordering invariant of the BFS queue, layered over `BfsInv`: each entry
carries the index walk along which its path was grown; that walk is least in
discovery order among all index walks reaching the entry's id; the queue is
sorted by discovery order; and each next-level walk extends a walk
lexicographically below every current-level walk still queued. -/
structure BfsOrd (people : List Person) (adj : String → List AdjEntry)
    (s : String)
    (Qw : List ((String × List PathSegment) × List Nat)) : Prop where
  ichain : ∀ x ∈ Qw, IChain people adj x.1.2 x.2 s x.1.1
  minimal : ∀ x ∈ Qw, ∀ js, IdxWalk adj s js x.1.1 → x.2 = js ∨ walkLt x.2 js
  sorted : Qw.Pairwise (fun a b => walkLt a.2 b.2)
  prefix_lt : ∀ x ∈ Qw, ∀ y ∈ Qw, x.2.length = y.2.length + 1 →
      ∃ pre k, x.2 = pre ++ [k] ∧ List.Lex (· < ·) pre y.2

/-! Basic lemmas about the builder. -/

theorem findPerson_eq_some {people : List Person} {pid : String} {p : Person}
    (h : findPerson people pid = some p) : p ∈ people ∧ p.id = pid := by
  refine ⟨List.mem_of_find?_eq_some h, ?_⟩
  have := List.find?_some h
  simpa using this

theorem mem_buildAdj_iff (people : List Person) (rels : List StoredRelationship)
    (pid : String) (en : AdjEntry) :
    en ∈ buildAdj people rels pid ↔
      ∃ rel ∈ rels, (pid, en) ∈ relAdjEntries people rel := by
  unfold buildAdj
  constructor
  · intro h
    obtain ⟨e, he, hee⟩ := List.mem_map.mp h
    obtain ⟨he1, he2⟩ := List.mem_filter.mp he
    obtain ⟨l, hl, hel⟩ := List.mem_flatten.mp he1
    obtain ⟨rel, hrel, hfl⟩ := List.mem_map.mp hl
    refine ⟨rel, hrel, ?_⟩
    have hkey : e.1 = pid := by simpa using he2
    have hpe : (pid, en) = e := by
      cases e
      simp only at hee hkey
      simp [hee, hkey]
    rw [hpe, hfl]
    exact hel
  · rintro ⟨rel, hrel, hmem⟩
    refine List.mem_map.mpr ⟨(pid, en), ?_, rfl⟩
    refine List.mem_filter.mpr ⟨?_, by simp⟩
    exact List.mem_flatten.mpr ⟨relAdjEntries people rel, List.mem_map.mpr ⟨rel, hrel, rfl⟩, hmem⟩

/-- Claim C5: `findRelationshipPath(X, X, people, relationships)` returns the
single-segment path containing only person X, with no label and no
relationship id, iff X exists in the person set; otherwise it returns
not-found (`none`). -/
theorem findRelationshipPath_reflexive (X : String) (people : List Person)
    (rels : List StoredRelationship) :
    findRelationshipPath X X people rels =
      (findPerson people X).map (fun p => [{ person := p }]) ∧
    ((findPerson people X).isSome ↔ X ∈ people.map Person.id) := by
  constructor
  · show findRelationshipPathFuel _ _ _ _ _ = _
    unfold findRelationshipPathFuel
    rw [if_pos (by simp)]
    cases findPerson people X <;> simp
  · rw [Option.isSome_iff_exists]
    constructor
    · rintro ⟨p, hp⟩
      obtain ⟨hmem, hid⟩ := findPerson_eq_some hp
      exact List.mem_map.mpr ⟨p, hmem, hid⟩
    · intro hmem
      obtain ⟨p, hp, hid⟩ := List.mem_map.mp hmem
      have : (people.find? (fun q => q.id == X)).isSome :=
        List.find?_isSome.mpr ⟨p, hp, by simp [hid]⟩
      exact Option.isSome_iff_exists.mp this

/-- Claim C3: for every relationship whose two endpoints both reference
existing people, the builder emits both directed adjacency entries with the
specified labels: a FATHER (resp. MOTHER) relationship yields a forward edge
from parent to child labeled "is father of" (resp. "is mother of") and a
reverse edge from child to parent labeled "is child of (father: NAME)"
(resp. "is child of (mother: NAME)") where NAME is the parent's name at build
time; SPOUSE and SIBLING relationships yield the identical label
"is spouse of" / "is sibling of" in both directions. -/
theorem builder_emits_both_edges (people : List Person)
    (rels : List StoredRelationship) (rel : StoredRelationship) (fp tp : Person)
    (hmem : rel ∈ rels)
    (hf : findPerson people rel.fromPersonId = some fp)
    (ht : findPerson people rel.toPersonId = some tp) :
    (rel.type = .FATHER →
      (⟨rel.toPersonId, "is father of", rel.id⟩ : AdjEntry) ∈
        buildAdj people rels rel.fromPersonId ∧
      (⟨rel.fromPersonId, "is child of (father: " ++ fp.name ++ ")", rel.id⟩ : AdjEntry) ∈
        buildAdj people rels rel.toPersonId) ∧
    (rel.type = .MOTHER →
      (⟨rel.toPersonId, "is mother of", rel.id⟩ : AdjEntry) ∈
        buildAdj people rels rel.fromPersonId ∧
      (⟨rel.fromPersonId, "is child of (mother: " ++ fp.name ++ ")", rel.id⟩ : AdjEntry) ∈
        buildAdj people rels rel.toPersonId) ∧
    (rel.type = .SPOUSE →
      (⟨rel.toPersonId, "is spouse of", rel.id⟩ : AdjEntry) ∈
        buildAdj people rels rel.fromPersonId ∧
      (⟨rel.fromPersonId, "is spouse of", rel.id⟩ : AdjEntry) ∈
        buildAdj people rels rel.toPersonId) ∧
    (rel.type = .SIBLING →
      (⟨rel.toPersonId, "is sibling of", rel.id⟩ : AdjEntry) ∈
        buildAdj people rels rel.fromPersonId ∧
      (⟨rel.fromPersonId, "is sibling of", rel.id⟩ : AdjEntry) ∈
        buildAdj people rels rel.toPersonId) := by
    refine ⟨?_, ?_, ?_, ?_⟩ <;> intro htype <;>
      refine ⟨(mem_buildAdj_iff _ _ _ _).mpr ⟨rel, hmem, ?_⟩,
              (mem_buildAdj_iff _ _ _ _).mpr ⟨rel, hmem, ?_⟩⟩ <;>
      simp [relAdjEntries, hf, ht, relEdges, htype]

/-- Witness for C3 at a concrete FATHER relationship. -/
theorem builder_emits_both_edges_witness :
    (⟨"A", "is father of", "r1"⟩ : AdjEntry) ∈ buildAdj wPeople wRels "B" ∧
    (⟨"B", "is child of (father: Bob)", "r1"⟩ : AdjEntry) ∈ buildAdj wPeople wRels "A" := by
  have h := builder_emits_both_edges wPeople wRels ⟨"r1", "B", "A", .FATHER⟩ wBob wAnn
    (by decide) (by decide) (by decide)
  exact h.1 rfl

/-- Claim C4: for every path of length exactly 2 whose single hop carries a
(non-empty) label, the classifier returns "X is child of Y." when the label
indicates a child-of relation, "X and Y are siblings." when it indicates a
sibling relation, and otherwise echoes the direct label verbatim between the
two names. -/
theorem derive_direct_edge (people : List Person) (p1 p2 : PathSegment)
    (l : String) (hl : p1.relationshipToNext = some l) (hne : l ≠ "") :
    deriveComplexRelationship (some [p1, p2]) people =
      some (if strStartsWith l "is child of" then
              p1.person.name ++ " is child of " ++ p2.person.name ++ "."
            else if strIncludes l "is sibling of" then
              p1.person.name ++ " and " ++ p2.person.name ++ " are siblings."
            else
              p1.person.name ++ " " ++ l ++ " " ++ p2.person.name ++ ".") := by
  have hbe : (l == "") = false := by simpa using hne
  simp only [deriveComplexRelationship, List.getLastD, hl, hbe]
  by_cases hc : strStartsWith l "is child of" <;>
    by_cases hs : strIncludes l "is sibling of" <;>
      simp [hc, hs]

/-- Witness for C4 at the three label shapes. -/
theorem derive_direct_edge_witness :
    deriveComplexRelationship
      (some [{ person := wBob, relationshipToNext := some "is father of",
               relationshipId := some "r1" }, { person := wAnn }]) wPeople =
      some "Bob is father of Ann." := by
  have h := derive_direct_edge wPeople
    { person := wBob, relationshipToNext := some "is father of", relationshipId := some "r1" }
    { person := wAnn } "is father of" rfl (by decide)
  simpa using h

/-- Claim C2: for every path of length 3 whose pair of consecutive hop labels
is classified as exactly one kind each, the classifier returns the term of
the pattern table gendered by the start person (genders other than male and
female falling back to the gender-neutral term), returns `none` when the pair
of kinds matches no pattern, and returns `none` for every path of length 4 or
more; it is a total function and never throws. -/
theorem derive_one_hop_patterns (people : List Person) :
    (∀ (p1 p2 p3 : PathSegment) (k1 k2 : HopKind),
        labelKindExact p1.relationshipToNext k1 →
        labelKindExact p2.relationshipToNext k2 →
        deriveComplexRelationship (some [p1, p2, p3]) people =
          (complexTermFor k1 k2 p1.person.gender).map
            (fun t => p1.person.name ++ " is " ++ t ++ " of " ++ p3.person.name ++ ".")) ∧
    (∀ p : List PathSegment, 4 ≤ p.length →
        deriveComplexRelationship (some p) people = none) := by
  constructor
  · rintro p1 p2 p3 k1 k2 ⟨a1, b1, c1, d1⟩ ⟨a2, b2, c2, d2⟩
    simp only [labelIsParent, labelIsChild, labelIsSpouse, labelIsSibling] at a1 b1 c1 d1 a2 b2 c2 d2
    cases k1 <;> cases k2 <;>
      simp_all [deriveComplexRelationship, complexTermFor, List.getLastD]
  · intro p hp
    rcases p with _ | ⟨a, _ | ⟨b, _ | ⟨c, _ | ⟨d, rest⟩⟩⟩⟩ <;>
      simp_all [deriveComplexRelationship]

/-- Witness for C2 at a concrete sibling-then-mother pair (the uncle/aunt
pattern, female start person). -/
theorem derive_one_hop_patterns_witness :
    deriveComplexRelationship
      (some [{ person := wAnn, relationshipToNext := some "is sibling of",
               relationshipId := some "r2" },
             { person := wCal, relationshipToNext := some "is mother of",
               relationshipId := some "r3" },
             { person := wBob }]) wPeople = some "Ann is aunt of Bob." := by
  have h := (derive_one_hop_patterns wPeople).1
    { person := wAnn, relationshipToNext := some "is sibling of", relationshipId := some "r2" }
    { person := wCal, relationshipToNext := some "is mother of", relationshipId := some "r3" }
    { person := wBob } .siblingOf .parentOf (by decide) (by decide)
  simpa using h

/-- Claim C7 counterexample: with a SIBLING relationship listed before a
FATHER relationship between the same two people, the builder inserts the
sibling edge first (not the FATHER edge, as the claimed kind-sorted order
would require), and the search accordingly returns the sibling-labeled
path. -/
theorem tie_break_counterexample :
    buildAdj cPeople cRels "A" =
      [⟨"B", "is sibling of", "s1"⟩, ⟨"B", "is father of", "f1"⟩] ∧
    (findRelationshipPath "A" "B" cPeople cRels).map
        (fun p => p.map (fun s => s.relationshipId)) =
      some [some "s1", none] := by
  constructor <;> decide

/-- Builder insertion-order characterization: the adjacency list of each
person is the concatenation, in input-relationship order (irrespective of
relationship kind), of each relationship's contribution, and each
relationship with two existing endpoints contributes its forward edge (keyed
at the from-person) immediately followed by its reverse edge (keyed at the
to-person). -/
theorem buildAdj_order_chars (people : List Person)
    (rels : List StoredRelationship) (pid : String) :
    buildAdj people rels pid =
      (rels.map (fun rel =>
        ((relAdjEntries people rel).filter (fun e => e.1 == pid)).map
          (fun e => e.2))).flatten ∧
    (∀ rel : StoredRelationship, ∀ fp : Person,
      findPerson people rel.fromPersonId = some fp →
      (findPerson people rel.toPersonId).isSome →
      (relAdjEntries people rel).map (fun e => e.1) =
        [rel.fromPersonId, rel.toPersonId]) := by
  constructor
  · unfold buildAdj
    induction rels with
    | nil => simp
    | cons r rs ih => simp_all
  · intro rel fp hf ht
    obtain ⟨tp, htp⟩ := Option.isSome_iff_exists.mp ht
    cases h : rel.type <;>
      simp [relAdjEntries, hf, htp, relEdges, h]

/-! Lemmas about `updatePath`. -/

theorem updatePath_ne_nil (p : List PathSegment) (en : AdjEntry) (per : Person) :
    updatePath p en per ≠ [] := by
  unfold updatePath
  cases h : p.getLast? <;> simp

theorem updatePath_length {p : List PathSegment} (h : p ≠ []) (en : AdjEntry)
    (per : Person) : (updatePath p en per).length = p.length + 1 := by
  have hl : 0 < p.length := List.length_pos.mpr h
  unfold updatePath
  rw [List.getLast?_eq_getLast p h]
  simp only [List.length_append, List.length_dropLast, List.length_cons,
    List.length_nil]
  omega

theorem updatePath_cons (seg : PathSegment) {q : List PathSegment} (h : q ≠ [])
    (en : AdjEntry) (per : Person) :
    updatePath (seg :: q) en per = seg :: updatePath q en per := by
  obtain ⟨b, q', rfl⟩ : ∃ b q', q = b :: q' := by
    cases q with
    | nil => exact absurd rfl h
    | cons b q' => exact ⟨b, q', rfl⟩
  unfold updatePath
  rw [List.getLast?_eq_getLast (b :: q') (by simp),
    List.getLast?_eq_getLast (seg :: b :: q') (by simp)]
  simp [List.getLast_cons, List.dropLast_cons₂]

theorem pathIds_updatePath {p : List PathSegment} (h : p ≠ []) (en : AdjEntry)
    (per : Person) :
    pathIds (updatePath p en per) = pathIds p ++ [per.id] := by
  unfold updatePath
  rw [List.getLast?_eq_getLast p h]
  unfold pathIds
  conv_rhs => rw [← List.dropLast_append_getLast h]
  simp

theorem updatePath_head {p : List PathSegment} (h : p ≠ []) (en : AdjEntry)
    (per : Person) :
    (updatePath p en per).head?.map (fun seg => seg.person) =
      p.head?.map (fun seg => seg.person) := by
  cases p with
  | nil => exact absurd rfl h
  | cons seg q =>
    cases q with
    | nil => simp [updatePath]
    | cons b q' =>
      rw [updatePath_cons seg (by simp)]
      simp

theorem updatePath_getLast (p : List PathSegment) (en : AdjEntry) (per : Person) :
    (updatePath p en per).getLast? = some { person := per } := by
  unfold updatePath
  cases h : p.getLast? <;> simp

/-! Lemmas about `ReachN` and `Chain`. -/

theorem reachN_zero {adj : String → List AdjEntry} {u v : String}
    (h : ReachN adj 0 u v) : u = v := by
  cases h
  rfl

theorem reachN_snoc {adj : String → List AdjEntry} :
    ∀ {n : Nat} {u v w : String}, ReachN adj n u v → Edge adj v w →
      ReachN adj (n + 1) u w := by
  intro n u v w h
  induction h with
  | refl u => intro he; exact ReachN.step he (ReachN.refl _)
  | step h hr ih => intro he; exact ReachN.step h (ih he)

theorem reachN_decomp {adj : String → List AdjEntry} :
    ∀ {n : Nat} {u w : String}, ReachN adj n u w →
      (n = 0 ∧ u = w) ∨ ∃ m v, n = m + 1 ∧ ReachN adj m u v ∧ Edge adj v w := by
  intro n u w h
  induction h with
  | refl u => exact Or.inl ⟨rfl, rfl⟩
  | step he hr ih =>
    rcases ih with ⟨hn, hvw⟩ | ⟨m, x, hn, hrx, hex⟩
    · subst hn
      subst hvw
      exact Or.inr ⟨0, _, rfl, ReachN.refl _, he⟩
    · subst hn
      exact Or.inr ⟨m + 1, x, rfl, ReachN.step he hrx, hex⟩

theorem reachN_succ_iff {adj : String → List AdjEntry} {n : Nat} {s w : String} :
    ReachN adj (n + 1) s w ↔ ∃ v, ReachN adj n s v ∧ Edge adj v w := by
  constructor
  · intro h
    rcases reachN_decomp h with ⟨hn, _⟩ | ⟨m, v, hn, hr, he⟩
    · exact absurd hn (by omega)
    · obtain rfl : m = n := by omega
      exact ⟨v, hr, he⟩
  · rintro ⟨v, hr, he⟩
    exact reachN_snoc hr he

theorem Chain.ne_nil {people : List Person} {adj : String → List AdjEntry}
    {p : List PathSegment} {s u : String} (h : Chain people adj p s u) :
    p ≠ [] := by
  induction h with
  | single per u hper => simp
  | snoc p s u en per hp hen hper ih => exact updatePath_ne_nil p en per

theorem Chain.length_pos {people : List Person} {adj : String → List AdjEntry}
    {p : List PathSegment} {s u : String} (h : Chain people adj p s u) :
    0 < p.length :=
  List.length_pos.mpr h.ne_nil

theorem Chain.head_person {people : List Person} {adj : String → List AdjEntry}
    {p : List PathSegment} {s u : String} (h : Chain people adj p s u) :
    ∃ per : Person, p.head?.map (fun seg => seg.person) = some per ∧
      per.id = s := by
  induction h with
  | single per u hper => exact ⟨per, by simp, (findPerson_eq_some hper).2⟩
  | snoc p s u en per hp hen hper ih =>
    obtain ⟨per0, hh, hid⟩ := ih
    exact ⟨per0, by rw [updatePath_head hp.ne_nil]; exact hh, hid⟩

theorem Chain.getLast_person {people : List Person} {adj : String → List AdjEntry}
    {p : List PathSegment} {s u : String} (h : Chain people adj p s u) :
    ∃ per : Person, p.getLast? = some { person := per } ∧
      findPerson people u = some per := by
  induction h with
  | single per u hper => exact ⟨per, by simp, hper⟩
  | snoc p s u en per hp hen hper ih => exact ⟨per, updatePath_getLast p en per, hper⟩

theorem Chain.reach {people : List Person} {adj : String → List AdjEntry}
    {p : List PathSegment} {s u : String} (h : Chain people adj p s u) :
    ReachN adj (p.length - 1) s u := by
  induction h with
  | single per u hper => simpa using ReachN.refl u
  | snoc p s u en per hp hen hper ih =>
    rw [updatePath_length hp.ne_nil]
    have hpos := hp.length_pos
    have he : Edge adj u en.personId := List.mem_map.mpr ⟨en, hen, rfl⟩
    have hr : ReachN adj (p.length - 1 + 1) s en.personId := reachN_snoc ih he
    have heq : p.length - 1 + 1 = p.length + 1 - 1 := by omega
    rwa [heq] at hr

theorem Chain.pathIds_eq {people : List Person} {adj : String → List AdjEntry}
    {p : List PathSegment} {s u : String} (h : Chain people adj p s u) :
    ∃ ids, pathIds p = ids ++ [u] := by
  induction h with
  | single per u hper =>
    exact ⟨[], by simp [pathIds, (findPerson_eq_some hper).2]⟩
  | snoc p s u en per hp hen hper ih =>
    refine ⟨pathIds p, ?_⟩
    rw [pathIds_updatePath hp.ne_nil, (findPerson_eq_some hper).2]

/-! Shape lemmas about the builder's adjacency entries. -/

theorem relAdjEntries_shape (people : List Person) (rel : StoredRelationship)
    {x : String × AdjEntry} (hx : x ∈ relAdjEntries people rel) :
    ∃ fp tp, findPerson people rel.fromPersonId = some fp ∧
      findPerson people rel.toPersonId = some tp ∧
      ((x.1 = rel.fromPersonId ∧ x.2.personId = rel.toPersonId) ∨
       (x.1 = rel.toPersonId ∧ x.2.personId = rel.fromPersonId)) := by
  unfold relAdjEntries at hx
  cases hf : findPerson people rel.fromPersonId with
  | none => rw [hf] at hx; simp at hx
  | some fp =>
    rw [hf] at hx
    cases ht : findPerson people rel.toPersonId with
    | none => rw [ht] at hx; simp at hx
    | some tp =>
      rw [ht] at hx
      refine ⟨fp, tp, rfl, rfl, ?_⟩
      obtain ⟨rid, fid, tid, rtype⟩ := rel
      cases rtype <;> simp [relEdges] at hx <;>
        rcases hx with rfl | rfl <;> simp

theorem buildAdj_persons {people : List Person} {rels : List StoredRelationship}
    {u : String} {en : AdjEntry} (h : en ∈ buildAdj people rels u) :
    (∃ per, findPerson people u = some per) ∧
    (∃ per, findPerson people en.personId = some per) := by
  obtain ⟨rel, hrel, hmem⟩ := (mem_buildAdj_iff _ _ _ _).mp h
  obtain ⟨fp, tp, hf, ht, hshape⟩ := relAdjEntries_shape people rel hmem
  rcases hshape with ⟨h1, h2⟩ | ⟨h1, h2⟩
  · simp only at h1 h2
    rw [h1, h2]
    exact ⟨⟨fp, hf⟩, ⟨tp, ht⟩⟩
  · simp only at h1 h2
    rw [h1, h2]
    exact ⟨⟨tp, ht⟩, ⟨fp, hf⟩⟩

theorem buildAdj_edge_symm (people : List Person) (rels : List StoredRelationship)
    {u v : String} (h : Edge (buildAdj people rels) u v) :
    Edge (buildAdj people rels) v u := by
  obtain ⟨en, hen, henv⟩ := List.mem_map.mp h
  obtain ⟨rel, hrel, hmem⟩ := (mem_buildAdj_iff _ _ _ _).mp hen
  unfold relAdjEntries at hmem
  cases hf : findPerson people rel.fromPersonId with
  | none => rw [hf] at hmem; simp at hmem
  | some fp =>
    rw [hf] at hmem
    cases ht : findPerson people rel.toPersonId with
    | none => rw [ht] at hmem; simp at hmem
    | some tp =>
      rw [ht] at hmem
      apply List.mem_map.mpr
      obtain ⟨rid, fid, tid, rtype⟩ := rel
      cases rtype <;> simp [relEdges] at hmem <;>
        rcases hmem with ⟨rfl, rfl⟩ | ⟨rfl, rfl⟩ <;> simp only at henv <;> subst henv
      · exact ⟨⟨u, "is child of (father: " ++ fp.name ++ ")", rid⟩,
          (mem_buildAdj_iff _ _ _ _).mpr ⟨_, hrel,
            by simp [relAdjEntries, hf, ht, relEdges]⟩, rfl⟩
      · exact ⟨⟨u, "is father of", rid⟩,
          (mem_buildAdj_iff _ _ _ _).mpr ⟨_, hrel,
            by simp [relAdjEntries, hf, ht, relEdges]⟩, rfl⟩
      · exact ⟨⟨u, "is child of (mother: " ++ fp.name ++ ")", rid⟩,
          (mem_buildAdj_iff _ _ _ _).mpr ⟨_, hrel,
            by simp [relAdjEntries, hf, ht, relEdges]⟩, rfl⟩
      · exact ⟨⟨u, "is mother of", rid⟩,
          (mem_buildAdj_iff _ _ _ _).mpr ⟨_, hrel,
            by simp [relAdjEntries, hf, ht, relEdges]⟩, rfl⟩
      · exact ⟨⟨u, "is spouse of", rid⟩,
          (mem_buildAdj_iff _ _ _ _).mpr ⟨_, hrel,
            by simp [relAdjEntries, hf, ht, relEdges]⟩, rfl⟩
      · exact ⟨⟨u, "is spouse of", rid⟩,
          (mem_buildAdj_iff _ _ _ _).mpr ⟨_, hrel,
            by simp [relAdjEntries, hf, ht, relEdges]⟩, rfl⟩
      · exact ⟨⟨u, "is sibling of", rid⟩,
          (mem_buildAdj_iff _ _ _ _).mpr ⟨_, hrel,
            by simp [relAdjEntries, hf, ht, relEdges]⟩, rfl⟩
      · exact ⟨⟨u, "is sibling of", rid⟩,
          (mem_buildAdj_iff _ _ _ _).mpr ⟨_, hrel,
            by simp [relAdjEntries, hf, ht, relEdges]⟩, rfl⟩

/-! Lemmas about `processNeighbors`. -/

theorem processNeighbors_cons (people : List Person) (path : List PathSegment)
    (en : AdjEntry) (rest : List AdjEntry) (v : List String) :
    processNeighbors people path (en :: rest) v =
      if en.personId ∈ v then processNeighbors people path rest v
      else
        match findPerson people en.personId with
        | none => processNeighbors people path rest (en.personId :: v)
        | some per =>
            ((en.personId, updatePath path en per) ::
              (processNeighbors people path rest (en.personId :: v)).1,
             (processNeighbors people path rest (en.personId :: v)).2) := by
  by_cases h : en.personId ∈ v
  · have hc : v.contains en.personId = true := List.elem_iff.mpr h
    simp only [processNeighbors, hc, if_true, if_pos h]
  · have hc : v.contains en.personId = false := by
      rw [Bool.eq_false_iff]
      intro hcc
      exact h (List.elem_iff.mp hcc)
    simp only [processNeighbors, hc, Bool.false_eq_true, if_false, if_neg h]

theorem pn_visited_mono (people : List Person) (path : List PathSegment) :
    ∀ (es : List AdjEntry) (v : List String) (x : String),
      x ∈ v → x ∈ (processNeighbors people path es v).2 := by
  intro es
  induction es with
  | nil => intro v x hx; simpa [processNeighbors] using hx
  | cons en rest ih =>
    intro v x hx
    rw [processNeighbors_cons]
    by_cases h : en.personId ∈ v
    · rw [if_pos h]; exact ih v x hx
    · rw [if_neg h]
      cases hfp : findPerson people en.personId
      · exact ih _ x (List.mem_cons_of_mem _ hx)
      · exact ih _ x (List.mem_cons_of_mem _ hx)

theorem pn_all_visited (people : List Person) (path : List PathSegment) :
    ∀ (es : List AdjEntry) (v : List String), ∀ en ∈ es,
      en.personId ∈ (processNeighbors people path es v).2 := by
  intro es
  induction es with
  | nil => intro v en hen; simp at hen
  | cons en0 rest ih =>
    intro v en hen
    rw [processNeighbors_cons]
    rcases List.mem_cons.mp hen with rfl | hmem
    · by_cases h : en.personId ∈ v
      · rw [if_pos h]; exact pn_visited_mono people path rest v _ h
      · rw [if_neg h]
        cases hfp : findPerson people en.personId
        · exact pn_visited_mono people path rest _ _ (List.mem_cons_self _ _)
        · exact pn_visited_mono people path rest _ _ (List.mem_cons_self _ _)
    · by_cases h : en0.personId ∈ v
      · rw [if_pos h]; exact ih v en hmem
      · rw [if_neg h]
        cases hfp : findPerson people en0.personId
        · exact ih _ en hmem
        · exact ih _ en hmem

theorem pn_visited_sub (people : List Person) (path : List PathSegment) :
    ∀ (es : List AdjEntry) (v : List String) (x : String),
      x ∈ (processNeighbors people path es v).2 →
      x ∈ v ∨ ∃ en ∈ es, en.personId = x := by
  intro es
  induction es with
  | nil => intro v x hx; exact Or.inl (by simpa [processNeighbors] using hx)
  | cons en rest ih =>
    intro v x hx
    rw [processNeighbors_cons] at hx
    by_cases h : en.personId ∈ v
    · rw [if_pos h] at hx
      rcases ih v x hx with h1 | ⟨en1, hen1, hid⟩
      · exact Or.inl h1
      · exact Or.inr ⟨en1, List.mem_cons_of_mem _ hen1, hid⟩
    · rw [if_neg h] at hx
      have hstep : x ∈ en.personId :: v ∨ ∃ en1 ∈ rest, en1.personId = x := by
        cases hfp : findPerson people en.personId <;> rw [hfp] at hx
        · exact ih _ x hx
        · exact ih _ x hx
      rcases hstep with h1 | ⟨en1, hen1, hid⟩
      · rcases List.mem_cons.mp h1 with rfl | h2
        · exact Or.inr ⟨en, List.mem_cons_self _ _, rfl⟩
        · exact Or.inl h2
      · exact Or.inr ⟨en1, List.mem_cons_of_mem _ hen1, hid⟩

theorem pn_new_spec (people : List Person) (path : List PathSegment) :
    ∀ (es : List AdjEntry) (v : List String) (x : String × List PathSegment),
      x ∈ (processNeighbors people path es v).1 →
      ∃ en ∈ es, ∃ per, findPerson people en.personId = some per ∧
        x = (en.personId, updatePath path en per) ∧ en.personId ∉ v := by
  intro es
  induction es with
  | nil => intro v x hx; simp [processNeighbors] at hx
  | cons en rest ih =>
    intro v x hx
    rw [processNeighbors_cons] at hx
    by_cases h : en.personId ∈ v
    · rw [if_pos h] at hx
      obtain ⟨en1, hen1, per, hper, hx1, hx2⟩ := ih v x hx
      exact ⟨en1, List.mem_cons_of_mem _ hen1, per, hper, hx1, hx2⟩
    · rw [if_neg h] at hx
      cases hfp : findPerson people en.personId <;> rw [hfp] at hx
      · obtain ⟨en1, hen1, per, hper, hx1, hx2⟩ := ih _ x hx
        exact ⟨en1, List.mem_cons_of_mem _ hen1, per, hper, hx1,
          fun hm => hx2 (List.mem_cons_of_mem _ hm)⟩
      · rcases List.mem_cons.mp hx with rfl | hx3
        · exact ⟨en, List.mem_cons_self _ _, _, hfp, rfl, h⟩
        · obtain ⟨en1, hen1, per, hper, hx1, hx2⟩ := ih _ x hx3
          exact ⟨en1, List.mem_cons_of_mem _ hen1, per, hper, hx1,
            fun hm => hx2 (List.mem_cons_of_mem _ hm)⟩

theorem pn_new_fresh (people : List Person) (path : List PathSegment) :
    ∀ (es : List AdjEntry) (v : List String),
      (∀ x ∈ (processNeighbors people path es v).1, x.1 ∉ v) ∧
      ((processNeighbors people path es v).1.map Prod.fst).Nodup := by
  intro es
  induction es with
  | nil => intro v; simp [processNeighbors]
  | cons en rest ih =>
    intro v
    rw [processNeighbors_cons]
    by_cases h : en.personId ∈ v
    · rw [if_pos h]; exact ih v
    · rw [if_neg h]
      cases hfp : findPerson people en.personId with
      | none =>
        dsimp only
        obtain ⟨h1, h2⟩ := ih (en.personId :: v)
        exact ⟨fun x hx hv => h1 x hx (List.mem_cons_of_mem _ hv), h2⟩
      | some per =>
        dsimp only
        constructor
        · rintro x hx
          rcases List.mem_cons.mp hx with rfl | hx2
          · exact h
          · intro hv
            exact (ih (en.personId :: v)).1 x hx2 (List.mem_cons_of_mem _ hv)
        · simp only [List.map_cons, List.nodup_cons]
          refine ⟨?_, (ih (en.personId :: v)).2⟩
          intro hmem
          obtain ⟨x, hx, hx1⟩ := List.mem_map.mp hmem
          have hfr := (ih (en.personId :: v)).1 x hx
          rw [hx1] at hfr
          exact hfr (List.mem_cons_self _ _)

theorem pn_new_mem_visited (people : List Person) (path : List PathSegment) :
    ∀ (es : List AdjEntry) (v : List String),
      ∀ x ∈ (processNeighbors people path es v).1,
        x.1 ∈ (processNeighbors people path es v).2 := by
  intro es v x hx
  obtain ⟨en, hen, per, hper, rfl, hnv⟩ := pn_new_spec people path es v x hx
  exact pn_all_visited people path es v en hen

theorem pn_visited_nodup (people : List Person) (path : List PathSegment) :
    ∀ (es : List AdjEntry) (v : List String), v.Nodup →
      (processNeighbors people path es v).2.Nodup := by
  intro es
  induction es with
  | nil => intro v hv; simpa [processNeighbors] using hv
  | cons en rest ih =>
    intro v hv
    rw [processNeighbors_cons]
    by_cases h : en.personId ∈ v
    · rw [if_pos h]; exact ih v hv
    · rw [if_neg h]
      have hv' : (en.personId :: v).Nodup := List.nodup_cons.mpr ⟨h, hv⟩
      cases hfp : findPerson people en.personId
      · exact ih _ hv'
      · exact ih _ hv'

theorem pn_new_of_visited (people : List Person) (path : List PathSegment) :
    ∀ (es : List AdjEntry) (v : List String),
      (∀ en ∈ es, (findPerson people en.personId).isSome) →
      ∀ x ∈ (processNeighbors people path es v).2, x ∉ v →
        x ∈ (processNeighbors people path es v).1.map Prod.fst := by
  intro es
  induction es with
  | nil => intro v hfind x hx hnv; exact absurd (by simpa [processNeighbors] using hx) hnv
  | cons en rest ih =>
    intro v hfind x hx hnv
    rw [processNeighbors_cons] at hx ⊢
    by_cases h : en.personId ∈ v
    · rw [if_pos h] at hx ⊢
      exact ih v (fun e he => hfind e (List.mem_cons_of_mem _ he)) x hx hnv
    · rw [if_neg h] at hx ⊢
      cases hfp : findPerson people en.personId with
      | none =>
        have hcontra := hfind en (List.mem_cons_self _ _)
        rw [hfp] at hcontra
        simp at hcontra
      | some per =>
        rw [hfp] at hx
        dsimp only at hx ⊢
        by_cases hxe : x = en.personId
        · subst hxe
          simp
        · have hx2 : x ∉ en.personId :: v := by
            intro hm
            rcases List.mem_cons.mp hm with h1 | h2
            · exact hxe h1
            · exact hnv h2
          have hmem := ih _ (fun e he => hfind e (List.mem_cons_of_mem _ he)) x hx hx2
          simp only [List.map_cons]
          exact List.mem_cons_of_mem _ hmem

/-! The BFS loop invariant: preservation and consequences. -/

theorem levels_head_min {x0 : String × List PathSegment}
    {rest : List (String × List PathSegment)} {d : Nat}
    {qa qb : List (String × List PathSegment)}
    (hsplit : x0 :: rest = qa ++ qb)
    (ha : ∀ x ∈ qa, x.2.length = d + 1) (hb : ∀ x ∈ qb, x.2.length = d + 2) :
    ∀ x ∈ x0 :: rest, x0.2.length ≤ x.2.length := by
  intro x hx
  have hx2 : x ∈ qa ++ qb := hsplit ▸ hx
  cases qa with
  | nil =>
    simp only [List.nil_append] at hsplit
    have h0 : x0.2.length = d + 2 := hb x0 (by rw [← hsplit]; exact List.mem_cons_self _ _)
    have hx3 : x.2.length = d + 2 := hb x (by simpa using hx2)
    omega
  | cons a qa' =>
    rw [List.cons_append] at hsplit
    injection hsplit with h1 h2
    have h0 : x0.2.length = d + 1 := by rw [h1]; exact ha a (List.mem_cons_self _ _)
    rcases List.mem_append.mp hx2 with hxa | hxb
    · have := ha x hxa
      omega
    · have := hb x hxb
      omega

theorem bfs_frontier {people : List Person} {adj : String → List AdjEntry}
    {s e : String} {u : String} {p : List PathSegment}
    {rest : List (String × List PathSegment)} {V : List String}
    (inv : BfsInv people adj s e ((u, p) :: rest) V) :
    ∀ (m : Nat) (w : String), ReachN adj m s w → w ∉ V → p.length ≤ m := by
  obtain ⟨d, qa, qb, hsplit, ha, hb⟩ := inv.levels
  have hheadmin := levels_head_min hsplit ha hb
  intro m
  induction m using Nat.strong_induction_on with
  | _ m ih =>
    intro w hr hw
    cases m with
    | zero => exact absurd (reachN_zero hr ▸ inv.start_mem) hw
    | succ m =>
      obtain ⟨v, hrv, hedge⟩ := reachN_succ_iff.mp hr
      by_cases hv : v ∈ V
      · rcases inv.visited_proc v hv with hq | hnb
        · obtain ⟨x, hx, hx1⟩ := List.mem_map.mp hq
          have hlen : x.2.length ≤ m + 1 := inv.minimal x hx m (by rw [hx1]; exact hrv)
          have hmin2 : p.length ≤ x.2.length := hheadmin x hx
          omega
        · obtain ⟨en, hen, henw⟩ := List.mem_map.mp hedge
          exact absurd (henw ▸ hnb en hen) hw
      · have := ih m (Nat.lt_succ_self m) v hrv hv
        omega

theorem bfs_step {people : List Person} {adj : String → List AdjEntry}
    {s e : String} {u : String} {p : List PathSegment}
    {rest : List (String × List PathSegment)} {V : List String}
    (hadj : ∀ w, ∀ en ∈ adj w, ∃ per, findPerson people en.personId = some per)
    (inv : BfsInv people adj s e ((u, p) :: rest) V) (hne : u ≠ e) :
    BfsInv people adj s e (rest ++ (processNeighbors people p (adj u) V).1)
      (processNeighbors people p (adj u) V).2 := by
  have hfind : ∀ en ∈ adj u, (findPerson people en.personId).isSome := by
    intro en hen
    obtain ⟨per, hper⟩ := hadj u en hen
    simp [hper]
  have hchain_head : Chain people adj p s u := inv.chain (u, p) (List.mem_cons_self _ _)
  have hp_ne : p ≠ [] := hchain_head.ne_nil
  have hnew := pn_new_spec people p (adj u) V
  have hmono := pn_visited_mono people p (adj u) V
  have hfrontier := bfs_frontier inv
  obtain ⟨d, qa, qb, hsplit, ha, hb⟩ := inv.levels
  have hnewlen : ∀ x ∈ (processNeighbors people p (adj u) V).1,
      x.2.length = p.length + 1 := by
    intro x hx
    obtain ⟨en, hen, per, hper, rfl, hnv⟩ := hnew x hx
    simp [updatePath_length hp_ne]
  constructor
  · exact hmono s inv.start_mem
  · intro x hx
    rcases List.mem_append.mp hx with hxr | hxn
    · exact hmono _ (inv.q_sub x (List.mem_cons_of_mem _ hxr))
    · exact pn_new_mem_visited people p (adj u) V x hxn
  · intro x hx
    rcases List.mem_append.mp hx with hxr | hxn
    · exact inv.chain x (List.mem_cons_of_mem _ hxr)
    · obtain ⟨en, hen, per, hper, rfl, hnv⟩ := hnew x hxn
      exact Chain.snoc p s u en per hchain_head hen hper
  · intro x hx i hi
    rcases List.mem_append.mp hx with hxr | hxn
    · exact hmono _ (inv.ids_sub x (List.mem_cons_of_mem _ hxr) i hi)
    · obtain ⟨en, hen, per, hper, rfl, hnv⟩ := hnew x hxn
      rw [pathIds_updatePath hp_ne] at hi
      rcases List.mem_append.mp hi with hip | hiper
      · exact hmono _ (inv.ids_sub (u, p) (List.mem_cons_self _ _) i hip)
      · have hieq : i = per.id := by simpa using hiper
        rw [hieq, (findPerson_eq_some hper).2]
        exact pn_all_visited people p (adj u) V en hen
  · intro x hx
    rcases List.mem_append.mp hx with hxr | hxn
    · exact inv.ids_nodup x (List.mem_cons_of_mem _ hxr)
    · obtain ⟨en, hen, per, hper, rfl, hnv⟩ := hnew x hxn
      rw [pathIds_updatePath hp_ne]
      rw [List.nodup_append]
      refine ⟨inv.ids_nodup (u, p) (List.mem_cons_self _ _), List.nodup_singleton _, ?_⟩
      intro i hip hiper
      have hieq : i = per.id := by simpa using hiper
      have hiV : i ∈ V := inv.ids_sub (u, p) (List.mem_cons_self _ _) i hip
      rw [hieq, (findPerson_eq_some hper).2] at hiV
      exact hnv hiV
  · intro x hx m hrm
    rcases List.mem_append.mp hx with hxr | hxn
    · exact inv.minimal x (List.mem_cons_of_mem _ hxr) m hrm
    · obtain ⟨en, hen, per, hper, rfl, hnv⟩ := hnew x hxn
      have hlb : p.length ≤ m := hfrontier m en.personId hrm hnv
      rw [updatePath_length hp_ne]
      omega
  · cases qa with
    | nil =>
      simp only [List.nil_append] at hsplit
      have hplen : p.length = d + 2 :=
        hb (u, p) (by rw [← hsplit]; exact List.mem_cons_self _ _)
      have hrest : ∀ x ∈ rest, x.2.length = d + 2 := by
        intro x hx
        exact hb x (by rw [← hsplit]; exact List.mem_cons_of_mem _ hx)
      refine ⟨d + 1, rest, (processNeighbors people p (adj u) V).1, rfl, hrest, ?_⟩
      intro x hx
      rw [hnewlen x hx, hplen]
    | cons a qa' =>
      rw [List.cons_append] at hsplit
      injection hsplit with h1 h2
      have hplen : p.length = d + 1 := by
        have := ha a (List.mem_cons_self _ _)
        rw [← h1] at this
        simpa using this
      refine ⟨d, qa', qb ++ (processNeighbors people p (adj u) V).1,
        by rw [h2, List.append_assoc], ?_, ?_⟩
      · intro x hx
        exact ha x (List.mem_cons_of_mem _ hx)
      · intro x hx
        rcases List.mem_append.mp hx with hxb | hxn
        · exact hb x hxb
        · rw [hnewlen x hxn, hplen]
  · intro v hv
    by_cases hvV : v ∈ V
    · rcases inv.visited_proc v hvV with hq | hnb
      · simp only [List.map_cons, List.mem_cons] at hq
        rcases hq with h1 | hq2
        · subst h1
          exact Or.inr (fun en hen => pn_all_visited people p (adj _) V en hen)
        · exact Or.inl (by rw [List.map_append]; exact List.mem_append_left _ hq2)
      · exact Or.inr (fun en hen => hmono _ (hnb en hen))
    · have := pn_new_of_visited people p (adj u) V hfind v hv hvV
      exact Or.inl (by rw [List.map_append]; exact List.mem_append_right _ this)
  · intro he2
    by_cases heV : e ∈ V
    · have := inv.target_q heV
      simp only [List.map_cons, List.mem_cons] at this
      rcases this with h1 | h2
      · exact absurd h1.symm hne
      · rw [List.map_append]
        exact List.mem_append_left _ h2
    · have := pn_new_of_visited people p (adj u) V hfind e he2 heV
      rw [List.map_append]
      exact List.mem_append_right _ this
  · exact pn_visited_nodup people p (adj u) V inv.v_nodup
  · intro v hv
    rcases pn_visited_sub people p (adj u) V v hv with h1 | ⟨en, hen, hid⟩
    · exact inv.v_ids v h1
    · obtain ⟨per, hper⟩ := hadj u en hen
      obtain ⟨hmem, hid2⟩ := findPerson_eq_some hper
      rw [← hid, ← hid2]
      exact List.mem_map.mpr ⟨per, hmem, rfl⟩

theorem bfs_init {people : List Person} {adj : String → List AdjEntry}
    {s e : String} {startNode : Person}
    (hs : findPerson people s = some startNode) (hne : s ≠ e) :
    BfsInv people adj s e [(s, [{ person := startNode }])] [s] := by
  obtain ⟨hmem, hid⟩ := findPerson_eq_some hs
  constructor
  · simp
  · intro x hx
    simp only [List.mem_singleton] at hx
    simp [hx]
  · intro x hx
    simp only [List.mem_singleton] at hx
    rw [hx]
    exact Chain.single startNode s hs
  · intro x hx i hi
    simp only [List.mem_singleton] at hx
    rw [hx] at hi
    simp [pathIds] at hi
    simp [hi, hid]
  · intro x hx
    simp only [List.mem_singleton] at hx
    simp [hx, pathIds]
  · intro x hx m hrm
    simp only [List.mem_singleton] at hx
    simp [hx]
  · exact ⟨0, [(s, [{ person := startNode }])], [], by simp, by simp, by simp⟩
  · intro v hv
    simp only [List.mem_singleton] at hv
    exact Or.inl (by simp [hv])
  · intro hev
    simp only [List.mem_singleton] at hev
    exact absurd hev.symm hne
  · simp
  · intro v hv
    simp only [List.mem_singleton] at hv
    rw [hv, ← hid]
    exact List.mem_map.mpr ⟨startNode, hmem, rfl⟩

theorem bfs_closed {people : List Person} {adj : String → List AdjEntry}
    {s e : String} {V : List String} (inv : BfsInv people adj s e [] V) :
    ∀ (m : Nat) (w : String), ReachN adj m s w → w ∈ V := by
  intro m
  induction m with
  | zero =>
    intro w hr
    exact reachN_zero hr ▸ inv.start_mem
  | succ m ih =>
    intro w hr
    obtain ⟨v, hrv, hedge⟩ := reachN_succ_iff.mp hr
    have hv := ih v hrv
    rcases inv.visited_proc v hv with hq | hnb
    · simp at hq
    · obtain ⟨en, hen, henw⟩ := List.mem_map.mp hedge
      exact henw ▸ hnb en hen

theorem bfs_measure_step {people : List Person} {adj : String → List AdjEntry}
    {u : String} {p : List PathSegment}
    {rest : List (String × List PathSegment)} {V : List String} :
    bfsMeasure people (rest ++ (processNeighbors people p (adj u) V).1)
        (processNeighbors people p (adj u) V).2 + 1 ≤
      bfsMeasure people ((u, p) :: rest) V := by
  classical
  have hnodup : ((processNeighbors people p (adj u) V).1.map Prod.fst).Nodup :=
    (pn_new_fresh people p (adj u) V).2
  have hNsub : ∀ x ∈ (processNeighbors people p (adj u) V).1.map Prod.fst,
      x ∈ people.map Person.id ∧ x ∉ V := by
    intro x hx
    obtain ⟨y, hy, hyx⟩ := List.mem_map.mp hx
    obtain ⟨en, hen, per, hper, hyeq, hnv⟩ := pn_new_spec people p (adj u) V y hy
    obtain ⟨hmem, hid⟩ := findPerson_eq_some hper
    rw [hyeq] at hyx
    simp only at hyx
    rw [← hyx]
    exact ⟨List.mem_map.mpr ⟨per, hmem, hid⟩, hnv⟩
  have hsub1 : ((processNeighbors people p (adj u) V).1.map Prod.fst).toFinset ⊆
      (people.map Person.id).toFinset \ V.toFinset := by
    intro x hx
    rw [List.mem_toFinset] at hx
    obtain ⟨h1, h2⟩ := hNsub x hx
    rw [Finset.mem_sdiff, List.mem_toFinset, List.mem_toFinset]
    exact ⟨h1, h2⟩
  have hcard1 : ((processNeighbors people p (adj u) V).1.map Prod.fst).toFinset.card =
      (processNeighbors people p (adj u) V).1.length := by
    rw [List.toFinset_card_of_nodup hnodup, List.length_map]
  have hsub2 : (people.map Person.id).toFinset \
        (processNeighbors people p (adj u) V).2.toFinset ⊆
      ((people.map Person.id).toFinset \ V.toFinset) \
        ((processNeighbors people p (adj u) V).1.map Prod.fst).toFinset := by
    intro x hx
    rw [Finset.mem_sdiff] at hx
    obtain ⟨hxP, hxV2⟩ := hx
    rw [List.mem_toFinset] at hxV2
    rw [Finset.mem_sdiff, Finset.mem_sdiff]
    refine ⟨⟨hxP, ?_⟩, ?_⟩
    · rw [List.mem_toFinset]
      intro hxv
      exact hxV2 (pn_visited_mono people p (adj u) V x hxv)
    · rw [List.mem_toFinset]
      intro hxN
      obtain ⟨y, hy, hyx⟩ := List.mem_map.mp hxN
      exact hxV2 (hyx ▸ pn_new_mem_visited people p (adj u) V y hy)
  have hc2 : ((people.map Person.id).toFinset \
        (processNeighbors people p (adj u) V).2.toFinset).card ≤
      ((people.map Person.id).toFinset \ V.toFinset).card -
        (processNeighbors people p (adj u) V).1.length := by
    calc ((people.map Person.id).toFinset \
            (processNeighbors people p (adj u) V).2.toFinset).card
        ≤ (((people.map Person.id).toFinset \ V.toFinset) \
            ((processNeighbors people p (adj u) V).1.map Prod.fst).toFinset).card :=
          Finset.card_le_card hsub2
      _ = ((people.map Person.id).toFinset \ V.toFinset).card -
            ((processNeighbors people p (adj u) V).1.map Prod.fst).toFinset.card :=
          Finset.card_sdiff hsub1
      _ = ((people.map Person.id).toFinset \ V.toFinset).card -
            (processNeighbors people p (adj u) V).1.length := by rw [hcard1]
  have hc3 : (processNeighbors people p (adj u) V).1.length ≤
      ((people.map Person.id).toFinset \ V.toFinset).card := by
    calc (processNeighbors people p (adj u) V).1.length
        = ((processNeighbors people p (adj u) V).1.map Prod.fst).toFinset.card :=
          hcard1.symm
      _ ≤ ((people.map Person.id).toFinset \ V.toFinset).card :=
          Finset.card_le_card hsub1
  simp only [bfsMeasure, unseenCount, List.length_append, List.length_cons]
  omega

theorem bfsLoop_sound {people : List Person} {adj : String → List AdjEntry}
    {s e : String}
    (hadj : ∀ w, ∀ en ∈ adj w, ∃ per, findPerson people en.personId = some per) :
    ∀ (fuel : Nat) (Q : List (String × List PathSegment)) (V : List String)
      (p : List PathSegment),
      BfsInv people adj s e Q V →
      bfsLoop e people adj fuel Q V = some p →
      Chain people adj p s e ∧ (pathIds p).Nodup ∧
        ∀ m, ReachN adj m s e → p.length ≤ m + 1 := by
  intro fuel
  induction fuel with
  | zero =>
    intro Q V p inv h
    simp [bfsLoop] at h
  | succ fuel ih =>
    intro Q V p inv h
    cases Q with
    | nil => simp [bfsLoop] at h
    | cons x rest =>
      obtain ⟨u, cp⟩ := x
      simp only [bfsLoop] at h
      by_cases hue : u = e
      · rw [if_pos (by simp [hue])] at h
        obtain rfl : cp = p := by injection h
        subst hue
        exact ⟨inv.chain _ (List.mem_cons_self _ _),
          inv.ids_nodup _ (List.mem_cons_self _ _),
          fun m hm => inv.minimal _ (List.mem_cons_self _ _) m hm⟩
      · rw [if_neg (by simp [hue])] at h
        exact ih _ _ _ (bfs_step hadj inv hue) h

theorem bfsLoop_complete {people : List Person} {adj : String → List AdjEntry}
    {s e : String}
    (hadj : ∀ w, ∀ en ∈ adj w, ∃ per, findPerson people en.personId = some per) :
    ∀ (fuel : Nat) (Q : List (String × List PathSegment)) (V : List String),
      BfsInv people adj s e Q V →
      bfsMeasure people Q V ≤ fuel →
      (∃ m, ReachN adj m s e) →
      (bfsLoop e people adj fuel Q V).isSome := by
  intro fuel
  induction fuel with
  | zero =>
    intro Q V inv hmeas hreach
    obtain ⟨m, hm⟩ := hreach
    cases Q with
    | nil =>
      have hev : e ∈ V := bfs_closed inv m e hm
      have := inv.target_q hev
      simp at this
    | cons x rest => simp [bfsMeasure] at hmeas
  | succ fuel ih =>
    intro Q V inv hmeas hreach
    cases Q with
    | nil =>
      obtain ⟨m, hm⟩ := hreach
      have hev : e ∈ V := bfs_closed inv m e hm
      have := inv.target_q hev
      simp at this
    | cons x rest =>
      obtain ⟨u, cp⟩ := x
      simp only [bfsLoop]
      by_cases hue : u = e
      · rw [if_pos (by simp [hue])]
        simp
      · rw [if_neg (by simp [hue])]
        refine ih _ _ (bfs_step hadj inv hue) ?_ hreach
        have hstep := @bfs_measure_step people adj u cp rest V
        omega

theorem bfsLoop_fuel_succ {people : List Person} {adj : String → List AdjEntry}
    {e : String} :
    ∀ (fuel : Nat) (Q : List (String × List PathSegment)) (V : List String),
      bfsMeasure people Q V ≤ fuel →
      bfsLoop e people adj (fuel + 1) Q V = bfsLoop e people adj fuel Q V := by
  intro fuel
  induction fuel with
  | zero =>
    intro Q V hmeas
    cases Q with
    | nil => simp [bfsLoop]
    | cons x rest => simp [bfsMeasure] at hmeas
  | succ fuel ih =>
    intro Q V hmeas
    cases Q with
    | nil => simp [bfsLoop]
    | cons x rest =>
      obtain ⟨u, cp⟩ := x
      simp only [bfsLoop]
      by_cases hue : (u == e) = true
      · rw [if_pos hue, if_pos hue]
      · rw [if_neg hue, if_neg hue]
        apply ih
        have hstep := @bfs_measure_step people adj u cp rest V
        omega

theorem bfsLoop_fuel_mono {people : List Person} {adj : String → List AdjEntry}
    {e : String} {f1 f2 : Nat} (Q : List (String × List PathSegment)) (V : List String)
    (hm : bfsMeasure people Q V ≤ f1) (hle : f1 ≤ f2) :
    bfsLoop e people adj f1 Q V = bfsLoop e people adj f2 Q V := by
  induction f2, hle using Nat.le_induction with
  | base => rfl
  | succ f2 hle ih =>
    rw [ih, bfsLoop_fuel_succ f2 Q V (le_trans hm hle)]

/-! Structural consequences for returned paths. -/

theorem Chain.cons_decomp {people : List Person} {adj : String → List AdjEntry} :
    ∀ {p : List PathSegment} {s u : String}, Chain people adj p s u →
      (∃ per, p = [{ person := per }] ∧ u = s ∧ findPerson people s = some per) ∨
      (∃ seg q en, p = seg :: q ∧ seg.person.id = s ∧ en ∈ adj s ∧
        seg.relationshipToNext = some en.relationshipLabel ∧
        seg.relationshipId = some en.relationshipId ∧
        Chain people adj q en.personId u) := by
  intro p s u h
  induction h with
  | single per u hper => exact Or.inl ⟨per, rfl, rfl, hper⟩
  | snoc p s u en per hp hen hper ih =>
    rcases ih with ⟨per0, rfl, rfl, hper0⟩ |
      ⟨seg, q, en0, rfl, hsegid, hen0, hlbl, hrid, hq⟩
    · right
      refine ⟨{ person := per0, relationshipToNext := some en.relationshipLabel,
                relationshipId := some en.relationshipId },
              [{ person := per }], en, ?_, ?_, hen, rfl, rfl, ?_⟩
      · simp [updatePath]
      · exact (findPerson_eq_some hper0).2
      · exact Chain.single per en.personId hper
    · right
      have hqne : q ≠ [] := hq.ne_nil
      rw [updatePath_cons seg hqne]
      exact ⟨seg, updatePath q en per, en0, rfl, hsegid, hen0, hlbl, hrid,
        Chain.snoc q en0.personId u en per hq hen hper⟩

theorem chain_segChainOk {people : List Person} {adj : String → List AdjEntry} :
    ∀ (n : Nat) {p : List PathSegment} {s u : String}, p.length ≤ n →
      Chain people adj p s u → SegChainOk adj p := by
  intro n
  induction n with
  | zero =>
    intro p s u hlen hc
    have := hc.length_pos
    omega
  | succ n ih =>
    intro p s u hlen hc
    rcases hc.cons_decomp with ⟨per, rfl, rfl, hper⟩ |
      ⟨seg, q, en, rfl, hsegid, hen, hlbl, hrid, hq⟩
    · exact ⟨rfl, rfl⟩
    · obtain ⟨q1, q', rfl⟩ : ∃ q1 q', q = q1 :: q' := by
        cases q with
        | nil => exact absurd rfl hq.ne_nil
        | cons a b => exact ⟨a, b, rfl⟩
      obtain ⟨per1, hh, hid1⟩ := hq.head_person
      have hq1 : q1.person = per1 := by simpa using hh
      refine ⟨⟨en, by rw [hsegid]; exact hen, ?_, hlbl, hrid⟩, ?_⟩
      · rw [hq1, hid1]
      · refine ih ?_ hq
        simp only [List.length_cons] at hlen ⊢
        omega

/-! Top-level soundness and completeness of `findRelationshipPath`. -/

theorem buildAdj_hadj (people : List Person) (rels : List StoredRelationship) :
    ∀ w, ∀ en ∈ buildAdj people rels w,
      ∃ per, findPerson people en.personId = some per :=
  fun _ _ hen => (buildAdj_persons hen).2

theorem find_sound {s e : String} {people : List Person}
    {rels : List StoredRelationship} {p : List PathSegment} (hne : s ≠ e)
    (h : findRelationshipPath s e people rels = some p) :
    Chain people (buildAdj people rels) p s e ∧ (pathIds p).Nodup ∧
      ∀ m, ReachN (buildAdj people rels) m s e → p.length ≤ m + 1 := by
  unfold findRelationshipPath findRelationshipPathFuel at h
  rw [if_neg (by simpa using hne)] at h
  cases hs : findPerson people s with
  | none => rw [hs] at h; simp at h
  | some startNode =>
    rw [hs] at h
    exact bfsLoop_sound (buildAdj_hadj people rels) _ _ _ p (bfs_init hs hne) h

theorem find_complete {s e : String} {people : List Person}
    {rels : List StoredRelationship} (hne : s ≠ e)
    (hreach : ∃ n, ReachN (buildAdj people rels) n s e) :
    (findRelationshipPath s e people rels).isSome := by
  obtain ⟨n, hn⟩ := hreach
  have hs : ∃ startNode, findPerson people s = some startNode := by
    cases n with
    | zero => exact absurd (reachN_zero hn) hne
    | succ n =>
      cases hn with
      | step he hr =>
        obtain ⟨en, hen, henv⟩ := List.mem_map.mp he
        exact (buildAdj_persons hen).1
  obtain ⟨startNode, hsn⟩ := hs
  unfold findRelationshipPath findRelationshipPathFuel
  rw [if_neg (by simpa using hne), hsn]
  apply bfsLoop_complete (buildAdj_hadj people rels)
  · exact bfs_init hsn hne
  · have hsP : s ∈ (people.map Person.id).toFinset := by
      rw [List.mem_toFinset]
      obtain ⟨hmem, hid⟩ := findPerson_eq_some hsn
      exact List.mem_map.mpr ⟨startNode, hmem, hid⟩
    simp only [bfsMeasure, unseenCount, List.length_singleton]
    have h1 : ((people.map Person.id).toFinset \ ([s] : List String).toFinset).card =
        (people.map Person.id).toFinset.card - 1 := by
      have hss : ([s] : List String).toFinset = {s} := by simp
      rw [hss, Finset.card_sdiff (Finset.singleton_subset_iff.mpr hsP),
        Finset.card_singleton]
    have h2 : (people.map Person.id).toFinset.card ≤ people.length := by
      calc (people.map Person.id).toFinset.card
          ≤ (people.map Person.id).length := List.toFinset_card_le _
        _ = people.length := List.length_map _ _
    have h3 : 1 ≤ (people.map Person.id).toFinset.card :=
      Finset.card_pos.mpr ⟨s, hsP⟩
    omega
  · exact ⟨n, hn⟩

theorem find_main {s e : String} {people : List Person}
    {rels : List StoredRelationship} (hne : s ≠ e)
    (hreach : ∃ n, ReachN (buildAdj people rels) n s e) :
    ∃ p, findRelationshipPath s e people rels = some p ∧
      Chain people (buildAdj people rels) p s e ∧ (pathIds p).Nodup ∧
      ∀ m, ReachN (buildAdj people rels) m s e → p.length ≤ m + 1 := by
  obtain ⟨p, hp⟩ := Option.isSome_iff_exists.mp (find_complete hne hreach)
  obtain ⟨h1, h2, h3⟩ := find_sound hne hp
  exact ⟨p, hp, h1, h2, h3⟩

theorem reachN_symm {adj : String → List AdjEntry}
    (hsym : ∀ u v, Edge adj u v → Edge adj v u) :
    ∀ {n : Nat} {u w : String}, ReachN adj n u w → ReachN adj n w u := by
  intro n u w h
  induction h with
  | refl u => exact ReachN.refl u
  | step h hr ih => exact reachN_snoc ih (hsym _ _ h)

/-- Claim C1: for every person set and relationship set, and every
`startId ≠ endId` such that the end person is reachable from the start person
in the undirected adjacency graph built from the relationships,
`findRelationshipPath` returns a path whose hop count equals the minimum
number of edges on any connecting path. -/
theorem findRelationshipPath_shortest (s e : String) (people : List Person)
    (rels : List StoredRelationship) (hne : s ≠ e)
    (hreach : ∃ n, ReachN (buildAdj people rels) n s e) :
    ∃ p n, findRelationshipPath s e people rels = some p ∧ p.length = n + 1 ∧
      ReachN (buildAdj people rels) n s e ∧
      ∀ m, ReachN (buildAdj people rels) m s e → n ≤ m := by
  obtain ⟨p, hp, hchain, hnodup, hmin⟩ := find_main hne hreach
  have hpos := hchain.length_pos
  refine ⟨p, p.length - 1, hp, by omega, hchain.reach, ?_⟩
  intro m hm
  have := hmin m hm
  omega

/-- Witness for C1: in the concrete family, Cal is two hops from Bob (through
Ann) and the search returns a two-hop path. -/
theorem findRelationshipPath_shortest_witness :
    ∃ p n, findRelationshipPath "B" "C" wPeople wRels = some p ∧
      p.length = n + 1 ∧ ReachN (buildAdj wPeople wRels) n "B" "C" ∧
      ∀ m, ReachN (buildAdj wPeople wRels) m "B" "C" → n ≤ m :=
  findRelationshipPath_shortest "B" "C" wPeople wRels (by decide)
    ⟨2, ReachN.step (by decide : Edge (buildAdj wPeople wRels) "B" "A")
      (ReachN.step (by decide : Edge (buildAdj wPeople wRels) "A" "C")
        (ReachN.refl "C"))⟩

/-- Claim C6: for every connected pair of distinct people, the hop count of
the path from A to B equals the hop count of the path from B to A. -/
theorem findRelationshipPath_length_symm (A B : String) (people : List Person)
    (rels : List StoredRelationship) (hne : A ≠ B)
    (hreach : ∃ n, ReachN (buildAdj people rels) n A B) :
    ∃ p q, findRelationshipPath A B people rels = some p ∧
      findRelationshipPath B A people rels = some q ∧
      p.length = q.length := by
  have hsym : ∀ u v, Edge (buildAdj people rels) u v →
      Edge (buildAdj people rels) v u :=
    fun _ _ h => buildAdj_edge_symm people rels h
  have hreach' : ∃ n, ReachN (buildAdj people rels) n B A := by
    obtain ⟨n, hn⟩ := hreach
    exact ⟨n, reachN_symm hsym hn⟩
  obtain ⟨p, hp, hchain, hnd, hmin⟩ := find_main hne hreach
  obtain ⟨q, hq, hchain2, hnd2, hmin2⟩ := find_main (Ne.symm hne) hreach'
  have h1 : p.length ≤ q.length := by
    have hr2 := reachN_symm hsym hchain2.reach
    have := hmin _ hr2
    have := hchain2.length_pos
    omega
  have h2 : q.length ≤ p.length := by
    have hr2 := reachN_symm hsym hchain.reach
    have := hmin2 _ hr2
    have := hchain.length_pos
    omega
  exact ⟨p, q, hp, hq, by omega⟩

/-- Witness for C6 at the concrete family. -/
theorem findRelationshipPath_length_symm_witness :
    ∃ p q, findRelationshipPath "B" "C" wPeople wRels = some p ∧
      findRelationshipPath "C" "B" wPeople wRels = some q ∧
      p.length = q.length :=
  findRelationshipPath_length_symm "B" "C" wPeople wRels (by decide)
    ⟨2, ReachN.step (by decide : Edge (buildAdj wPeople wRels) "B" "A")
      (ReachN.step (by decide : Edge (buildAdj wPeople wRels) "A" "C")
        (ReachN.refl "C"))⟩

/-- Claim C10: every multi-segment path returned for `startId ≠ endId` is a
simple path: it starts at the start person, ends at the end person, repeats
no person id, every non-final segment carries exactly the label and
relationship id of the one adjacency edge traversed to the next segment, and
the final segment carries neither. -/
theorem findRelationshipPath_simple (s e : String) (people : List Person)
    (rels : List StoredRelationship) (p : List PathSegment) (hne : s ≠ e)
    (h : findRelationshipPath s e people rels = some p) :
    2 ≤ p.length ∧
    p.head?.map (fun seg => seg.person.id) = some s ∧
    (∃ per, p.getLast? = some { person := per } ∧ per.id = e) ∧
    (pathIds p).Nodup ∧
    SegChainOk (buildAdj people rels) p := by
  obtain ⟨hchain, hnodup, hmin⟩ := find_sound hne h
  have hreach := hchain.reach
  have hpos := hchain.length_pos
  have hlen2 : 2 ≤ p.length := by
    by_contra hlt
    have hp1 : p.length = 1 := by omega
    rw [hp1] at hreach
    exact hne (reachN_zero (by simpa using hreach))
  obtain ⟨per0, hh, hid0⟩ := hchain.head_person
  have hhead : p.head?.map (fun seg => seg.person.id) = some s := by
    cases hp : p.head? with
    | none => rw [hp] at hh; simp at hh
    | some seg =>
      rw [hp] at hh
      rw [Option.map_some'] at hh
      have hseg : seg.person = per0 := by injection hh
      simp [hp, hseg, hid0]
  obtain ⟨perL, hl, hfl⟩ := hchain.getLast_person
  exact ⟨hlen2, hhead, ⟨perL, hl, (findPerson_eq_some hfl).2⟩, hnodup,
    chain_segChainOk p.length (le_refl _) hchain⟩

/-- Witness for C10 at the concrete family: the returned two-hop path from
Bob to Cal. -/
theorem findRelationshipPath_simple_witness :
    2 ≤ ([{ person := wBob, relationshipToNext := some "is father of",
            relationshipId := some "r1" },
          { person := wAnn, relationshipToNext := some "is sibling of",
            relationshipId := some "r2" },
          { person := wCal }] : List PathSegment).length ∧
    (([{ person := wBob, relationshipToNext := some "is father of",
         relationshipId := some "r1" },
       { person := wAnn, relationshipToNext := some "is sibling of",
         relationshipId := some "r2" },
       { person := wCal }] : List PathSegment).head?.map
        (fun seg => seg.person.id)) = some "B" ∧
    (∃ per, ([{ person := wBob, relationshipToNext := some "is father of",
                relationshipId := some "r1" },
              { person := wAnn, relationshipToNext := some "is sibling of",
                relationshipId := some "r2" },
              { person := wCal }] : List PathSegment).getLast? =
        some { person := per } ∧ per.id = "C") ∧
    (pathIds [{ person := wBob, relationshipToNext := some "is father of",
                relationshipId := some "r1" },
              { person := wAnn, relationshipToNext := some "is sibling of",
                relationshipId := some "r2" },
              { person := wCal }]).Nodup ∧
    SegChainOk (buildAdj wPeople wRels)
      [{ person := wBob, relationshipToNext := some "is father of",
         relationshipId := some "r1" },
       { person := wAnn, relationshipToNext := some "is sibling of",
         relationshipId := some "r2" },
       { person := wCal }] :=
  findRelationshipPath_simple "B" "C" wPeople wRels _ (by decide) (by decide)

/-- Claim C8: `findRelationshipPath` and `deriveComplexRelationship` are
total and never raise: a missing start person, a relationship referencing a
non-existent person id on either end (silently skipped by the builder), a
disconnected pair, and an unclassifiable path shape each yield `none`. -/
theorem no_fatal_errors :
    (∀ (s e : String) (people : List Person) (rels : List StoredRelationship),
      s ≠ e → findPerson people s = none →
      findRelationshipPath s e people rels = none) ∧
    (∀ (s e : String) (people : List Person) (rels : List StoredRelationship),
      s ≠ e → findPerson people e = none →
      findRelationshipPath s e people rels = none) ∧
    (∀ (people : List Person) (rel : StoredRelationship),
      findPerson people rel.fromPersonId = none ∨
        findPerson people rel.toPersonId = none →
      relAdjEntries people rel = []) ∧
    (∀ (s e : String) (people : List Person) (rels : List StoredRelationship),
      (¬ ∃ n, ReachN (buildAdj people rels) n s e) →
      findRelationshipPath s e people rels = none) ∧
    (∀ people : List Person, deriveComplexRelationship none people = none) ∧
    (∀ (people : List Person) (p : List PathSegment), p.length < 2 →
      deriveComplexRelationship (some p) people = none) := by
  refine ⟨?_, ?_, ?_, ?_, ?_, ?_⟩
  · intro s e people rels hne hs
    unfold findRelationshipPath findRelationshipPathFuel
    rw [if_neg (by simpa using hne), hs]
  · intro s e people rels hne he
    cases hres : findRelationshipPath s e people rels with
    | none => rfl
    | some p =>
      obtain ⟨hchain, _, _⟩ := find_sound hne hres
      obtain ⟨perL, hl, hfl⟩ := hchain.getLast_person
      rw [he] at hfl
      exact Option.noConfusion hfl
  · intro people rel hmiss
    unfold relAdjEntries
    rcases hmiss with hm | hm <;> rw [hm]
    cases findPerson people rel.fromPersonId <;> rfl
  · intro s e people rels hnr
    by_cases hne : s = e
    · exact absurd ⟨0, hne ▸ ReachN.refl s⟩ hnr
    · cases hres : findRelationshipPath s e people rels with
      | none => rfl
      | some p =>
        obtain ⟨hchain, _, _⟩ := find_sound hne hres
        exact absurd ⟨p.length - 1, hchain.reach⟩ hnr
  · intro people
    rfl
  · intro people p hlen
    rcases p with _ | ⟨a, _ | ⟨b, rest⟩⟩
    · rfl
    · rfl
    · simp only [List.length_cons] at hlen
      omega

/-- Witness for C8 at concrete degenerate inputs ("Z" is no person's id and
Cal has no relationships in `cRels`). -/
theorem no_fatal_errors_witness :
    findRelationshipPath "Z" "A" wPeople wRels = none ∧
    findRelationshipPath "A" "Y" wPeople wRels = none ∧
    relAdjEntries wPeople ⟨"r9", "A", "Z", .MOTHER⟩ = [] ∧
    findRelationshipPath "A" "Z" wPeople wRels = none ∧
    deriveComplexRelationship none wPeople = none ∧
    deriveComplexRelationship (some [{ person := wAnn }]) wPeople = none := by
  have hnr : ¬ ∃ n, ReachN (buildAdj wPeople wRels) n "A" "Z" := by
    rintro ⟨n, hn⟩
    cases n with
    | zero => exact absurd (reachN_zero hn) (by decide)
    | succ n =>
      obtain ⟨v, hv, hedge⟩ := reachN_succ_iff.mp hn
      obtain ⟨en, hen, henz⟩ := List.mem_map.mp hedge
      obtain ⟨per, hper⟩ := (buildAdj_persons hen).2
      rw [henz] at hper
      have hz : findPerson wPeople "Z" = none := by decide
      rw [hz] at hper
      exact Option.noConfusion hper
  exact ⟨no_fatal_errors.1 "Z" "A" wPeople wRels (by decide) (by decide),
    no_fatal_errors.2.1 "A" "Y" wPeople wRels (by decide) (by decide),
    no_fatal_errors.2.2.1 wPeople ⟨"r9", "A", "Z", .MOTHER⟩ (Or.inr (by decide)),
    no_fatal_errors.2.2.2.1 "A" "Z" wPeople wRels hnr,
    no_fatal_errors.2.2.2.2.1 wPeople,
    no_fatal_errors.2.2.2.2.2 wPeople [{ person := wAnn }] (by decide)⟩

/-! Self-edges contribute only entries the search always skips: removing all
self-relationships leaves the adjacency of each person without its self
entries, and the BFS result unchanged. -/

theorem buildAdj_cons (people : List Person) (r : StoredRelationship)
    (rs : List StoredRelationship) (pid : String) :
    buildAdj people (r :: rs) pid =
      ((relAdjEntries people r).filter (fun e => e.1 == pid)).map (fun e => e.2) ++
        buildAdj people rs pid := by
  simp [buildAdj]

theorem relAdjEntries_self_filter (people : List Person) (r : StoredRelationship)
    (u : String) (hself : r.fromPersonId = r.toPersonId) :
    (((relAdjEntries people r).filter (fun e => e.1 == u)).map
        (fun e => e.2)).filter (fun en => en.personId != u) = [] := by
  rw [List.eq_nil_iff_forall_not_mem]
  intro en hen
  rw [List.mem_filter] at hen
  obtain ⟨hen1, hen2⟩ := hen
  obtain ⟨x, hx, hxe⟩ := List.mem_map.mp hen1
  rw [List.mem_filter] at hx
  obtain ⟨hx1, hx2⟩ := hx
  obtain ⟨fp, tp, hf, ht, hshape⟩ := relAdjEntries_shape people r hx1
  have hxu : x.1 = u := by simpa using hx2
  have hpid : x.2.personId = x.1 := by
    rcases hshape with ⟨h1, h2⟩ | ⟨h1, h2⟩
    · rw [h1, h2, hself]
    · rw [h1, h2, hself]
  rw [← hxe, hpid, hxu] at hen2
  simp at hen2

theorem relAdjEntries_nonself_filter (people : List Person)
    (r : StoredRelationship) (u : String)
    (hns : r.fromPersonId ≠ r.toPersonId) :
    (((relAdjEntries people r).filter (fun e => e.1 == u)).map
        (fun e => e.2)).filter (fun en => en.personId != u) =
      ((relAdjEntries people r).filter (fun e => e.1 == u)).map (fun e => e.2) := by
  apply List.filter_eq_self.mpr
  intro en hen
  obtain ⟨x, hx, hxe⟩ := List.mem_map.mp hen
  rw [List.mem_filter] at hx
  obtain ⟨hx1, hx2⟩ := hx
  obtain ⟨fp, tp, hf, ht, hshape⟩ := relAdjEntries_shape people r hx1
  have hxu : x.1 = u := by simpa using hx2
  rw [← hxe]
  simp only [bne_iff_ne, ne_eq]
  rcases hshape with ⟨h1, h2⟩ | ⟨h1, h2⟩
  · rw [h2, ← hxu, h1]
    exact fun hcontra => hns hcontra.symm
  · rw [h2, ← hxu, h1]
    exact hns

theorem buildAdj_filter_self (people : List Person)
    (rels : List StoredRelationship) (u : String) :
    buildAdj people (rels.filter (fun r => r.fromPersonId != r.toPersonId)) u =
      (buildAdj people rels u).filter (fun en => en.personId != u) := by
  induction rels with
  | nil => simp [buildAdj]
  | cons r rs ih =>
    by_cases hself : r.fromPersonId = r.toPersonId
    · have hfil : (r :: rs).filter (fun r => r.fromPersonId != r.toPersonId) =
          rs.filter (fun r => r.fromPersonId != r.toPersonId) := by
        rw [List.filter_cons_of_neg]
        simp [hself]
      rw [hfil, ih, buildAdj_cons, List.filter_append,
        relAdjEntries_self_filter people r u hself, List.nil_append]
    · have hfil : (r :: rs).filter (fun r => r.fromPersonId != r.toPersonId) =
          r :: rs.filter (fun r => r.fromPersonId != r.toPersonId) := by
        rw [List.filter_cons_of_pos]
        simp [hself]
      rw [hfil, buildAdj_cons, buildAdj_cons, List.filter_append, ih,
        relAdjEntries_nonself_filter people r u hself]

theorem pn_filter_congr (people : List Person) (path : List PathSegment)
    (u : String) :
    ∀ (es : List AdjEntry) (v : List String), u ∈ v →
      processNeighbors people path (es.filter (fun en => en.personId != u)) v =
        processNeighbors people path es v := by
  intro es
  induction es with
  | nil => intro v hv; simp
  | cons en rest ih =>
    intro v hv
    by_cases hu : en.personId = u
    · rw [List.filter_cons_of_neg (by simp [hu])]
      rw [processNeighbors_cons, if_pos (by rw [hu]; exact hv)]
      exact ih v hv
    · rw [List.filter_cons_of_pos (by simp [hu])]
      rw [processNeighbors_cons, processNeighbors_cons]
      by_cases hmem : en.personId ∈ v
      · rw [if_pos hmem, if_pos hmem]
        exact ih v hv
      · rw [if_neg hmem, if_neg hmem]
        have hv' : u ∈ en.personId :: v := List.mem_cons_of_mem _ hv
        cases hfp : findPerson people en.personId
        · exact ih _ hv'
        · rw [ih _ hv']

theorem bfsLoop_filter_adj (people : List Person) (e : String)
    (adj : String → List AdjEntry) :
    ∀ (fuel : Nat) (Q : List (String × List PathSegment)) (V : List String),
      (∀ x ∈ Q, x.1 ∈ V) →
      bfsLoop e people
          (fun w => (adj w).filter (fun en => en.personId != w)) fuel Q V =
        bfsLoop e people adj fuel Q V := by
  intro fuel
  induction fuel with
  | zero => intro Q V hQ; simp [bfsLoop]
  | succ fuel ih =>
    intro Q V hQ
    cases Q with
    | nil => simp [bfsLoop]
    | cons x rest =>
      obtain ⟨u, cp⟩ := x
      simp only [bfsLoop]
      by_cases hue : (u == e) = true
      · rw [if_pos hue, if_pos hue]
      · rw [if_neg hue, if_neg hue]
        have hu : u ∈ V := hQ (u, cp) (List.mem_cons_self _ _)
        rw [pn_filter_congr people cp u (adj u) V hu]
        apply ih
        intro x hx
        rcases List.mem_append.mp hx with hxr | hxn
        · exact pn_visited_mono people cp (adj u) V _
            (hQ x (List.mem_cons_of_mem _ hxr))
        · exact pn_new_mem_visited people cp (adj u) V x hxn

/-- Claim C9: `findRelationshipPath` terminates on every input: the fuel
`people.length + 1` already suffices, so that any larger iteration budget
yields the same result; and self-edges (`fromPersonId = toPersonId`) are
effectively ignored — removing all self-relationships leaves the result
unchanged. -/
theorem findRelationshipPath_terminates (s e : String) (people : List Person)
    (rels : List StoredRelationship) :
    (∀ fuel, people.length + 1 ≤ fuel →
      findRelationshipPathFuel fuel s e people rels =
        findRelationshipPath s e people rels) ∧
    findRelationshipPath s e people rels =
      findRelationshipPath s e people
        (rels.filter (fun r => r.fromPersonId != r.toPersonId)) := by
  constructor
  · intro fuel hf
    unfold findRelationshipPath findRelationshipPathFuel
    by_cases hse : (s == e) = true
    · rw [if_pos hse, if_pos hse]
    · rw [if_neg hse, if_neg hse]
      cases hs : findPerson people s with
      | none => rfl
      | some startNode =>
        have hmeas : bfsMeasure people [(s, [{ person := startNode }])] [s] ≤
            people.length + 1 := by
          simp only [bfsMeasure, unseenCount, List.length_singleton]
          have h1 : ((people.map Person.id).toFinset \
              ([s] : List String).toFinset).card ≤
              (people.map Person.id).toFinset.card :=
            Finset.card_le_card (Finset.sdiff_subset)
          have h2 : (people.map Person.id).toFinset.card ≤ people.length := by
            calc (people.map Person.id).toFinset.card
                ≤ (people.map Person.id).length := List.toFinset_card_le _
              _ = people.length := List.length_map _ _
          omega
        exact (bfsLoop_fuel_mono _ _ hmeas hf).symm
  · unfold findRelationshipPath findRelationshipPathFuel
    by_cases hse : (s == e) = true
    · rw [if_pos hse, if_pos hse]
    · rw [if_neg hse, if_neg hse]
      cases hs : findPerson people s with
      | none => rfl
      | some startNode =>
        have hadjeq : buildAdj people
            (rels.filter (fun r => r.fromPersonId != r.toPersonId)) =
            fun w => (buildAdj people rels w).filter
              (fun en => en.personId != w) :=
          funext (buildAdj_filter_self people rels)
        show bfsLoop e people (buildAdj people rels) (people.length + 1)
            [(s, [{ person := startNode }])] [s] =
          bfsLoop e people
            (buildAdj people
              (rels.filter (fun r => r.fromPersonId != r.toPersonId)))
            (people.length + 1) [(s, [{ person := startNode }])] [s]
        rw [hadjeq]
        exact (bfsLoop_filter_adj people e (buildAdj people rels)
          (people.length + 1) [(s, [{ person := startNode }])] [s]
          (by intro x hx; simp only [List.mem_singleton] at hx; simp [hx])).symm

/-- Witness for C9: a larger fuel budget gives the same answer on the
concrete family. -/
theorem findRelationshipPath_terminates_witness :
    findRelationshipPathFuel 100 "B" "C" wPeople wRels =
      findRelationshipPath "B" "C" wPeople wRels :=
  (findRelationshipPath_terminates "B" "C" wPeople wRels).1 100 (by decide)

/-! Lexicographic facts about index sequences, and the correspondence between
index walks, reachability and search chains. -/

theorem lex_trans : ∀ {a b c : List Nat}, List.Lex (· < ·) a b →
    List.Lex (· < ·) b c → List.Lex (· < ·) a c := by
  intro a b c h1
  induction h1 generalizing c with
  | nil =>
    intro h2
    cases h2 with
    | cons h => exact List.Lex.nil
    | rel h => exact List.Lex.nil
  | cons h ih =>
    intro h2
    cases h2 with
    | cons h2c => exact List.Lex.cons (ih h2c)
    | rel h2r => exact List.Lex.rel h2r
  | rel h =>
    intro h2
    cases h2 with
    | cons h2c => exact List.Lex.rel h
    | rel h2r => exact List.Lex.rel (lt_trans h h2r)

theorem lex_append : ∀ {a b : List Nat}, List.Lex (· < ·) a b →
    a.length = b.length → ∀ (x y : List Nat),
    List.Lex (· < ·) (a ++ x) (b ++ y) := by
  intro a b h
  induction h with
  | nil => intro hlen; simp at hlen
  | cons h ih =>
    intro hlen x y
    exact List.Lex.cons (ih (by simpa using hlen) x y)
  | rel h =>
    intro hlen x y
    exact List.Lex.rel h

theorem lex_append_last (a : List Nat) {i j : Nat} (h : i < j) :
    List.Lex (· < ·) (a ++ [i]) (a ++ [j]) := by
  induction a with
  | nil => exact List.Lex.rel h
  | cons hd tl ih => exact List.Lex.cons ih

theorem idxwalk_nil {adj : String → List AdjEntry} {u w : String}
    (h : IdxWalk adj u [] w) : u = w := by
  cases h
  rfl

theorem idxwalk_snoc {adj : String → List AdjEntry} :
    ∀ {u v : String} {is : List Nat}, IdxWalk adj u is v →
      ∀ {i : Nat} {en : AdjEntry}, (adj v)[i]? = some en →
      IdxWalk adj u (is ++ [i]) en.personId := by
  intro u v is h
  induction h with
  | nil u =>
    intro i en hi
    exact IdxWalk.cons hi (IdxWalk.nil _)
  | cons h hw ih =>
    intro i en hi
    exact IdxWalk.cons h (ih hi)

theorem reachN_of_idxwalk {adj : String → List AdjEntry} :
    ∀ {u w : String} {is : List Nat}, IdxWalk adj u is w →
      ReachN adj is.length u w := by
  intro u w is h
  induction h with
  | nil u => exact ReachN.refl u
  | cons h hw ih =>
    exact ReachN.step (List.mem_map.mpr ⟨_, List.getElem?_mem h, rfl⟩) ih

theorem idxwalk_of_reachN {adj : String → List AdjEntry} :
    ∀ {n : Nat} {u w : String}, ReachN adj n u w →
      ∃ is : List Nat, is.length = n ∧ IdxWalk adj u is w := by
  intro n u w h
  induction h with
  | refl u => exact ⟨[], rfl, IdxWalk.nil u⟩
  | @step u1 v1 w1 n1 h hr ih =>
    obtain ⟨is, hlen, hw⟩ := ih
    obtain ⟨en, hen, henv⟩ := List.mem_map.mp h
    obtain ⟨i, hilt, hie⟩ := List.mem_iff_getElem.mp hen
    have hgi : (adj u1)[i]? = some en := by
      rw [List.getElem?_eq_getElem hilt, hie]
    refine ⟨i :: is, by simp [hlen], IdxWalk.cons hgi ?_⟩
    rw [henv]
    exact hw

theorem idxwalk_snoc_decomp {adj : String → List AdjEntry} :
    ∀ {s w : String} {js : List Nat}, IdxWalk adj s js w →
      ∀ {n : Nat}, js.length = n + 1 →
      ∃ pre j u' en, js = pre ++ [j] ∧ pre.length = n ∧
        IdxWalk adj s pre u' ∧ (adj u')[j]? = some en ∧ en.personId = w := by
  intro s w js h
  induction h with
  | nil u => intro n hlen; simp at hlen
  | @cons u w i is en h hw ih =>
    intro n hlen
    cases is with
    | nil =>
      have hn : n = 0 := by simpa using hlen
      subst hn
      exact ⟨[], i, u, en, rfl, rfl, IdxWalk.nil u, h, idxwalk_nil hw⟩
    | cons a rest =>
      simp only [List.length_cons] at hlen
      have hlen2 : (a :: rest).length = (n - 1) + 1 := by
        simp only [List.length_cons]
        omega
      obtain ⟨pre, j, u', en', heq, hplen, hw2, hg, hpid⟩ := ih hlen2
      refine ⟨i :: pre, j, u', en', by rw [heq]; rfl, ?_,
        IdxWalk.cons h hw2, hg, hpid⟩
      simp only [List.length_cons, hplen]
      omega

theorem IChain.length_eq {people : List Person} {adj : String → List AdjEntry} :
    ∀ {p : List PathSegment} {is : List Nat} {s u : String},
      IChain people adj p is s u → p.length = is.length + 1 := by
  intro p is s u h
  induction h with
  | single per u hper => rfl
  | snoc p is s u i en per hp hi hper ih =>
    have hne : p ≠ [] := by
      intro hcon
      rw [hcon] at ih
      simp at ih
    rw [updatePath_length hne, ih, List.length_append]
    rfl

theorem IChain.idxwalk {people : List Person} {adj : String → List AdjEntry} :
    ∀ {p : List PathSegment} {is : List Nat} {s u : String},
      IChain people adj p is s u → IdxWalk adj s is u := by
  intro p is s u h
  induction h with
  | single per u hper => exact IdxWalk.nil u
  | snoc p is s u i en per hp hi hper ih => exact idxwalk_snoc ih hi

theorem levels_two_lengths {x0 : String × List PathSegment}
    {rest : List (String × List PathSegment)} {d : Nat}
    {qa qb : List (String × List PathSegment)}
    (hsplit : x0 :: rest = qa ++ qb)
    (ha : ∀ x ∈ qa, x.2.length = d + 1) (hb : ∀ x ∈ qb, x.2.length = d + 2) :
    ∀ x ∈ x0 :: rest, x.2.length = x0.2.length ∨
      x.2.length = x0.2.length + 1 := by
  intro x hx
  have hx2 : x ∈ qa ++ qb := hsplit ▸ hx
  cases qa with
  | nil =>
    simp only [List.nil_append] at hsplit
    have h0 : x0.2.length = d + 2 :=
      hb x0 (by rw [← hsplit]; exact List.mem_cons_self _ _)
    have h1 : x.2.length = d + 2 := hb x (by simpa using hx2)
    omega
  | cons a qa' =>
    rw [List.cons_append] at hsplit
    injection hsplit with h1 h2
    have h0 : x0.2.length = d + 1 := by
      have := ha a (List.mem_cons_self _ _)
      rw [← h1] at this
      simpa using this
    rcases List.mem_append.mp hx2 with hxa | hxb
    · have := ha x hxa
      omega
    · have := hb x hxb
      omega

/-- Each entry enqueued by one `processNeighbors` pass comes from the first
adjacency-list position targeting its person id, and the enqueued entries
appear in strictly increasing position order. -/
theorem pn_new_indexed (people : List Person) (path : List PathSegment) :
    ∀ (es : List AdjEntry) (v : List String),
      ∃ idxs : List Nat,
        idxs.length = (processNeighbors people path es v).1.length ∧
        idxs.Pairwise (· < ·) ∧
        ∀ (k : Nat) (hk : k < idxs.length),
          ∃ en per,
            es[idxs[k]]? = some en ∧
            findPerson people en.personId = some per ∧
            (processNeighbors people path es v).1[k]? =
              some (en.personId, updatePath path en per) ∧
            ∀ j < idxs[k], ∀ en', es[j]? = some en' →
              en'.personId ≠ en.personId := by
  intro es
  induction es with
  | nil =>
    intro v
    refine ⟨[], by simp [processNeighbors], List.Pairwise.nil, ?_⟩
    intro k hk
    simp at hk
  | cons en0 rest ih =>
    intro v
    rw [processNeighbors_cons]
    by_cases hmem : en0.personId ∈ v
    · rw [if_pos hmem]
      obtain ⟨idxs, hlen, hpw, hspec⟩ := ih v
      refine ⟨idxs.map (· + 1), by simpa using hlen,
        (List.pairwise_map).mpr (hpw.imp (fun h => by omega)), ?_⟩
      intro k hk
      have hk' : k < idxs.length := by simpa using hk
      obtain ⟨en, per, hg, hper, hout, hmin⟩ := hspec k hk'
      have hidx : (idxs.map (· + 1))[k] = idxs[k] + 1 := by simp
      refine ⟨en, per, by rw [hidx]; simpa using hg, hper, hout, ?_⟩
      intro j hj en' hj'
      rw [hidx] at hj
      cases j with
      | zero =>
        simp only [List.getElem?_cons_zero, Option.some_inj] at hj'
        rw [← hj']
        intro hcon
        have hout_mem := List.getElem?_mem hout
        obtain ⟨enx, henx, perx, hperx, heqx, hnvx⟩ :=
          pn_new_spec people path rest v _ hout_mem
        have hnv : en.personId ∉ v := by
          have hfst := congrArg Prod.fst heqx
          simp only at hfst
          rw [hfst]
          exact hnvx
        exact hnv (hcon ▸ hmem)
      | succ j2 =>
        simp only [List.getElem?_cons_succ] at hj'
        exact hmin j2 (by omega) en' hj'
    · rw [if_neg hmem]
      cases hfp : findPerson people en0.personId with
      | none =>
        dsimp only
        obtain ⟨idxs, hlen, hpw, hspec⟩ := ih (en0.personId :: v)
        refine ⟨idxs.map (· + 1), by simpa using hlen,
          (List.pairwise_map).mpr (hpw.imp (fun h => by omega)), ?_⟩
        intro k hk
        have hk' : k < idxs.length := by simpa using hk
        obtain ⟨en, per, hg, hper, hout, hmin⟩ := hspec k hk'
        have hidx : (idxs.map (· + 1))[k] = idxs[k] + 1 := by simp
        refine ⟨en, per, by rw [hidx]; simpa using hg, hper, hout, ?_⟩
        intro j hj en' hj'
        rw [hidx] at hj
        cases j with
        | zero =>
          simp only [List.getElem?_cons_zero, Option.some_inj] at hj'
          rw [← hj']
          intro hcon
          have hout_mem := List.getElem?_mem hout
          obtain ⟨enx, henx, perx, hperx, heqx, hnvx⟩ :=
            pn_new_spec people path rest (en0.personId :: v) _ hout_mem
          have hnv : en.personId ∉ en0.personId :: v := by
            have hfst := congrArg Prod.fst heqx
            simp only at hfst
            rw [hfst]
            exact hnvx
          exact hnv (by rw [← hcon]; exact List.mem_cons_self _ _)
        | succ j2 =>
          simp only [List.getElem?_cons_succ] at hj'
          exact hmin j2 (by omega) en' hj'
      | some per0 =>
        dsimp only
        obtain ⟨idxs, hlen, hpw, hspec⟩ := ih (en0.personId :: v)
        refine ⟨0 :: idxs.map (· + 1), by simpa using hlen, ?_, ?_⟩
        · refine List.pairwise_cons.mpr
            ⟨?_, (List.pairwise_map).mpr (hpw.imp (fun h => by omega))⟩
          intro b hb
          obtain ⟨a, ha, rfl⟩ := List.mem_map.mp hb
          omega
        · intro k hk
          cases k with
          | zero =>
            refine ⟨en0, per0, by simp, hfp, by simp, ?_⟩
            intro j hj
            simp at hj
          | succ k2 =>
            have hk' : k2 < idxs.length := by
              simp only [List.length_cons, List.length_map] at hk
              omega
            obtain ⟨en, per, hg, hper, hout, hmin⟩ := hspec k2 hk'
            have hidx : (0 :: idxs.map (· + 1))[k2 + 1] = idxs[k2] + 1 := by simp
            refine ⟨en, per, by rw [hidx]; simpa using hg, hper,
              by simpa using hout, ?_⟩
            intro j hj en' hj'
            rw [hidx] at hj
            cases j with
            | zero =>
              simp only [List.getElem?_cons_zero, Option.some_inj] at hj'
              rw [← hj']
              intro hcon
              have hout_mem := List.getElem?_mem hout
              obtain ⟨enx, henx, perx, hperx, heqx, hnvx⟩ :=
                pn_new_spec people path rest (en0.personId :: v) _ hout_mem
              have hnv : en.personId ∉ en0.personId :: v := by
                have hfst := congrArg Prod.fst heqx
                simp only at hfst
                rw [hfst]
                exact hnvx
              exact hnv (by rw [← hcon]; exact List.mem_cons_self _ _)
            | succ j2 =>
              simp only [List.getElem?_cons_succ] at hj'
              exact hmin j2 (by omega) en' hj'

/-- One BFS step preserves the discovery-order invariant: the entries
enqueued for the head's fresh neighbors carry walks extending the head's
walk by the first adjacency position reaching each neighbor, and each such
walk is least in discovery order among all index walks to that neighbor. -/
theorem bfsord_step {people : List Person} {adj : String → List AdjEntry}
    {s e u : String} {p : List PathSegment} {is_u : List Nat}
    {restW : List ((String × List PathSegment) × List Nat)} {V : List String}
    (inv : BfsInv people adj s e ((u, p) :: restW.map Prod.fst) V)
    (ord : BfsOrd people adj s (((u, p), is_u) :: restW)) :
    ∃ newW : List ((String × List PathSegment) × List Nat),
      newW.map Prod.fst = (processNeighbors people p (adj u) V).1 ∧
      BfsOrd people adj s (restW ++ newW) := by
  obtain ⟨idxs, hilen, hipw, hispec⟩ := pn_new_indexed people p (adj u) V
  refine ⟨(processNeighbors people p (adj u) V).1.zip
    (idxs.map (fun i => is_u ++ [i])), ?_, ?_⟩
  · apply List.map_fst_zip
    simp [hilen]
  have hch : IChain people adj p is_u s u := ord.ichain _ (List.mem_cons_self _ _)
  have hplen : p.length = is_u.length + 1 := hch.length_eq
  have hfrontier := bfs_frontier inv
  have hW : ∀ x ∈ (processNeighbors people p (adj u) V).1.zip
      (idxs.map (fun i => is_u ++ [i])),
      ∃ (k : Nat) (hk : k < idxs.length) (en : AdjEntry) (per : Person),
        (adj u)[idxs[k]]? = some en ∧
        findPerson people en.personId = some per ∧
        x = ((en.personId, updatePath p en per), is_u ++ [idxs[k]]) ∧
        (∀ j < idxs[k], ∀ en', (adj u)[j]? = some en' →
          en'.personId ≠ en.personId) ∧
        en.personId ∉ V := by
    intro x hx
    obtain ⟨k, hk, hxe⟩ := List.mem_iff_getElem.mp hx
    have hkz := hk
    rw [List.length_zip, List.length_map] at hkz
    have hk1 : k < (processNeighbors people p (adj u) V).1.length := by omega
    have hk2 : k < idxs.length := by omega
    obtain ⟨en, per, hg, hper, hout, hmin⟩ := hispec k hk2
    have hnewk : (processNeighbors people p (adj u) V).1[k] =
        (en.personId, updatePath p en per) := by
      have hq := List.getElem?_eq_getElem hk1
      rw [hq] at hout
      exact Option.some_inj.mp hout
    have hmem_new : (en.personId, updatePath p en per) ∈
        (processNeighbors people p (adj u) V).1 := by
      rw [← hnewk]
      exact List.getElem_mem _
    obtain ⟨enx, henx, perx, hperx, heqx, hnvx⟩ :=
      pn_new_spec people p (adj u) V _ hmem_new
    have hnv : en.personId ∉ V := by
      have hfst := congrArg Prod.fst heqx
      simp only at hfst
      rw [hfst]
      exact hnvx
    refine ⟨k, hk2, en, per, hg, hper, ?_, hmin, hnv⟩
    rw [← hxe, List.getElem_zip, hnewk]
    simp
  have htwo : ∀ y ∈ restW, y.2.length = is_u.length ∨
      y.2.length = is_u.length + 1 := by
    intro y hy
    obtain ⟨d, qa, qb, hsplit, ha, hb⟩ := inv.levels
    have hyQ : y.1 ∈ (u, p) :: restW.map Prod.fst :=
      List.mem_cons_of_mem _ (List.mem_map_of_mem _ hy)
    have h1 := levels_two_lengths hsplit ha hb y.1 hyQ
    have hylen : y.1.2.length = y.2.length + 1 :=
      (ord.ichain y (List.mem_cons_of_mem _ hy)).length_eq
    simp only at h1
    omega
  have hsorted := ord.sorted
  rw [List.pairwise_cons] at hsorted
  obtain ⟨hhead_lt, hrest_pw⟩ := hsorted
  have hhead_lex : ∀ y ∈ restW, y.2.length = is_u.length →
      List.Lex (· < ·) is_u y.2 := by
    intro y hy hl
    rcases hhead_lt y hy with hlen2 | ⟨heq, hlex⟩
    · have hlen2' : is_u.length < y.2.length := hlen2
      omega
    · exact hlex
  have hfront : ∀ (js : List Nat) (w : String), IdxWalk adj s js w → w ∉ V →
      is_u.length + 1 ≤ js.length := by
    intro js w hw hnv
    have := hfrontier js.length w (reachN_of_idxwalk hw) hnv
    omega
  have hmin_new : ∀ (k : Nat) (hk : k < idxs.length) (en : AdjEntry),
      (adj u)[idxs[k]]? = some en →
      (∀ j < idxs[k], ∀ en', (adj u)[j]? = some en' →
        en'.personId ≠ en.personId) →
      en.personId ∉ V →
      ∀ js, IdxWalk adj s js en.personId →
        is_u ++ [idxs[k]] = js ∨ walkLt (is_u ++ [idxs[k]]) js := by
    intro k hk en hg hfirst hnv js hjs
    have hjslen : is_u.length + 1 ≤ js.length := hfront js en.personId hjs hnv
    by_cases hlencase : js.length = is_u.length + 1
    · obtain ⟨pre, j, u', en'', heq, hprelen, hw2, hg2, hpid2⟩ :=
        idxwalk_snoc_decomp hjs hlencase
      have hu'V : u' ∈ V := by
        by_contra hcon
        have := hfront pre u' hw2 hcon
        omega
      rcases inv.visited_proc u' hu'V with hq | hnb
      · simp only [List.map_cons, List.mem_cons] at hq
        rcases hq with hq1 | hq2
        · subst hq1
          rcases ord.minimal _ (List.mem_cons_self _ _) pre hw2 with
            hpre_eq | hpre_lt
          · have hj_ge : idxs[k] ≤ j := by
              by_contra hcon
              exact hfirst j (by omega) en'' hg2 hpid2
            by_cases hj_eq : j = idxs[k]
            · left
              rw [heq, ← hpre_eq, hj_eq]
            · right
              refine Or.inr ⟨by rw [heq]; simp [hprelen], ?_⟩
              rw [heq, ← hpre_eq]
              exact lex_append_last is_u (by omega)
          · have hlex : List.Lex (· < ·) is_u pre := by
              rcases hpre_lt with h1 | ⟨h2, h3⟩
              · have h1' : is_u.length < pre.length := h1
                exact absurd h1' (by omega)
              · exact h3
            right
            refine Or.inr ⟨by rw [heq]; simp [hprelen], ?_⟩
            rw [heq]
            exact lex_append hlex (by omega) _ _
        · rw [List.map_map] at hq2
          obtain ⟨y, hy, hyfst⟩ := List.mem_map.mp hq2
          have hw2y : IdxWalk adj s pre y.1.1 := by
            have : (Prod.fst ∘ Prod.fst) y = y.1.1 := rfl
            rw [this] at hyfst
            rw [hyfst]
            exact hw2
          rcases ord.minimal y (List.mem_cons_of_mem _ hy) pre hw2y with
            hy_eq | hy_lt
          · have hylen : y.2.length = is_u.length := by rw [hy_eq, hprelen]
            have hlex1 : List.Lex (· < ·) is_u y.2 := hhead_lex y hy hylen
            right
            refine Or.inr ⟨by rw [heq]; simp [hprelen], ?_⟩
            rw [heq, ← hy_eq]
            exact lex_append hlex1 hylen.symm _ _
          · have hy2len : y.2.length ≤ is_u.length := by
              rcases hy_lt with h1 | ⟨h2, _⟩ <;> omega
            have hylen : y.2.length = is_u.length := by
              rcases htwo y hy with h1 | h1 <;> omega
            have hlex1 : List.Lex (· < ·) is_u y.2 := hhead_lex y hy hylen
            have hlex2 : List.Lex (· < ·) y.2 pre := by
              rcases hy_lt with h1 | ⟨h2, h3⟩
              · exact absurd h1 (by omega)
              · exact h3
            right
            refine Or.inr ⟨by rw [heq]; simp [hprelen], ?_⟩
            rw [heq]
            exact lex_append (lex_trans hlex1 hlex2) (by omega) _ _
      · exfalso
        have hin : en''.personId ∈ V := hnb en'' (List.getElem?_mem hg2)
        rw [hpid2] at hin
        exact hnv hin
    · right
      left
      simp only [List.length_append, List.length_singleton]
      omega
  constructor
  · intro x hx
    rcases List.mem_append.mp hx with hxr | hxn
    · exact ord.ichain x (List.mem_cons_of_mem _ hxr)
    · obtain ⟨k, hk, en, per, hg, hper, rfl, hfirst, hnv⟩ := hW x hxn
      exact IChain.snoc p is_u s u idxs[k] en per hch hg hper
  · intro x hx js hjs
    rcases List.mem_append.mp hx with hxr | hxn
    · exact ord.minimal x (List.mem_cons_of_mem _ hxr) js hjs
    · obtain ⟨k, hk, en, per, hg, hper, rfl, hfirst, hnv⟩ := hW x hxn
      exact hmin_new k hk en hg hfirst hnv js hjs
  · rw [List.pairwise_append]
    refine ⟨hrest_pw, ?_, ?_⟩
    · rw [List.pairwise_iff_getElem]
      intro i1 i2 hi1 hi2 hij
      have hz := hi2
      rw [List.length_zip, List.length_map] at hz
      have hb1 : i1 < (processNeighbors people p (adj u) V).1.length := by omega
      have hb2 : i2 < (processNeighbors people p (adj u) V).1.length := by omega
      have hc1 : i1 < idxs.length := by omega
      have hc2 : i2 < idxs.length := by omega
      rw [List.getElem_zip, List.getElem_zip]
      simp only [List.getElem_map]
      have hlt : idxs[i1] < idxs[i2] :=
        List.pairwise_iff_getElem.mp hipw i1 i2 hc1 hc2 hij
      exact Or.inr ⟨by simp, lex_append_last is_u hlt⟩
    · intro a ha b hb
      obtain ⟨k, hk, en, per, hg, hper, rfl, hfirst, hnv⟩ := hW b hb
      rcases htwo a ha with hlen | hlen
      · left
        simp [hlen]
      · have hpl := ord.prefix_lt a (List.mem_cons_of_mem _ ha)
          ((u, p), is_u) (List.mem_cons_self _ _) (by simpa using hlen)
        obtain ⟨pre, k0, haeq, hlexpre⟩ := hpl
        have hprelen : pre.length = is_u.length := by
          have := congrArg List.length haeq
          simp at this
          omega
        right
        refine ⟨by rw [haeq]; simp [hprelen], ?_⟩
        rw [haeq]
        exact lex_append hlexpre hprelen _ _
  · intro x hx y hy hxy
    rcases List.mem_append.mp hx with hxr | hxn <;>
      rcases List.mem_append.mp hy with hyr | hyn
    · exact ord.prefix_lt x (List.mem_cons_of_mem _ hxr)
        y (List.mem_cons_of_mem _ hyr) hxy
    · obtain ⟨k, hk, en, per, hg, hper, heqy, hfirst, hnv⟩ := hW y hyn
      exfalso
      rw [heqy] at hxy
      simp only [List.length_append, List.length_singleton] at hxy
      rcases htwo x hxr with h1 | h1 <;> omega
    · obtain ⟨k, hk, en, per, hg, hper, rfl, hfirst, hnv⟩ := hW x hxn
      have hylen : y.2.length = is_u.length := by
        simp only [List.length_append, List.length_singleton] at hxy
        omega
      exact ⟨is_u, idxs[k], rfl, hhead_lex y hyr hylen⟩
    · obtain ⟨k1, hk1, en1, per1, hg1, hper1, rfl, hf1, hnv1⟩ := hW x hxn
      obtain ⟨k2, hk2, en2, per2, hg2, hper2, heq2, hf2, hnv2⟩ := hW y hyn
      exfalso
      rw [heq2] at hxy
      simp at hxy

/-- If the BFS loop returns a path from a state satisfying both invariants,
that path was grown along an index walk least in discovery order among all
index walks connecting start and target. -/
theorem bfsLoop_ord_sound {people : List Person} {adj : String → List AdjEntry}
    {s e : String}
    (hadj : ∀ w, ∀ en ∈ adj w, ∃ per, findPerson people en.personId = some per) :
    ∀ (fuel : Nat) (Qw : List ((String × List PathSegment) × List Nat))
      (V : List String) (p : List PathSegment),
      BfsInv people adj s e (Qw.map Prod.fst) V →
      BfsOrd people adj s Qw →
      bfsLoop e people adj fuel (Qw.map Prod.fst) V = some p →
      ∃ is, IChain people adj p is s e ∧
        ∀ js, IdxWalk adj s js e → is = js ∨ walkLt is js := by
  intro fuel
  induction fuel with
  | zero =>
    intro Qw V p _ _ h
    simp [bfsLoop] at h
  | succ fuel ih =>
    intro Qw V p inv ord h
    cases Qw with
    | nil => simp [bfsLoop] at h
    | cons x restW =>
      obtain ⟨⟨u, cp⟩, is_u⟩ := x
      simp only [List.map_cons] at h inv
      simp only [bfsLoop] at h
      by_cases hue : u = e
      · rw [if_pos (by simp [hue])] at h
        obtain rfl : cp = p := by injection h
        subst hue
        refine ⟨is_u, ord.ichain _ (List.mem_cons_self _ _), ?_⟩
        exact ord.minimal _ (List.mem_cons_self _ _)
      · rw [if_neg (by simp [hue])] at h
        obtain ⟨newW, hmap, ord'⟩ := bfsord_step inv ord
        have inv' := bfs_step hadj inv hue
        have hqeq : restW.map Prod.fst ++
            (processNeighbors people cp (adj u) V).1 =
            (restW ++ newW).map Prod.fst := by
          rw [List.map_append, hmap]
        rw [hqeq] at h inv'
        exact ih (restW ++ newW) _ p inv' ord' h

/-- The path returned by `findRelationshipPath` for a reachable distinct pair
follows the index walk least in discovery order: fewest hops first, and among
equally short connections the lexicographically least sequence of
adjacency-list positions — i.e. the first-discovered path under the
exploration order given by the builder's insertion order. -/
theorem find_tie_break {s e : String} {people : List Person}
    {rels : List StoredRelationship} (hne : s ≠ e)
    (hreach : ∃ n, ReachN (buildAdj people rels) n s e) :
    ∃ p is, findRelationshipPath s e people rels = some p ∧
      IChain people (buildAdj people rels) p is s e ∧
      ∀ js, IdxWalk (buildAdj people rels) s js e →
        is = js ∨ walkLt is js := by
  obtain ⟨p, hp⟩ := Option.isSome_iff_exists.mp (find_complete hne hreach)
  have h := hp
  unfold findRelationshipPath findRelationshipPathFuel at h
  rw [if_neg (by simpa using hne)] at h
  cases hs : findPerson people s with
  | none => rw [hs] at h; simp at h
  | some startNode =>
    rw [hs] at h
    have ordInit : BfsOrd people (buildAdj people rels) s
        [((s, [{ person := startNode }]), ([] : List Nat))] := by
      constructor
      · intro x hx
        simp only [List.mem_singleton] at hx
        rw [hx]
        exact IChain.single startNode s hs
      · intro x hx js hjs
        simp only [List.mem_singleton] at hx
        rw [hx]
        cases js with
        | nil => exact Or.inl rfl
        | cons a l =>
          right
          left
          simp
      · simp
      · intro x hx y hy hxy
        simp only [List.mem_singleton] at hx hy
        rw [hx, hy] at hxy
        simp at hxy
    obtain ⟨is, h1, h2⟩ := bfsLoop_ord_sound (buildAdj_hadj people rels)
      (people.length + 1) [((s, [{ person := startNode }]), ([] : List Nat))]
      [s] p (bfs_init hs hne) ordInit h
    exact ⟨p, is, hp, h1, h2⟩

/-- Claim C7 (amended): among multiple equally short paths,
`findRelationshipPath` returns the one discovered first under the
exploration order in which edges were inserted into each person's adjacency
list by the builder — the returned path is grown along the index walk that is
least in discovery order (fewest hops, then lexicographically least sequence
of adjacency-list positions) among all index walks connecting the two
people — and that insertion order is the input relationship order
irrespective of relationship kind, with each relationship's forward edge
inserted immediately before its reverse edge. -/
theorem findRelationshipPath_tie_break (s e : String) (people : List Person)
    (rels : List StoredRelationship) (hne : s ≠ e)
    (hreach : ∃ n, ReachN (buildAdj people rels) n s e) :
    (∃ p is, findRelationshipPath s e people rels = some p ∧
      IChain people (buildAdj people rels) p is s e ∧
      ∀ js, IdxWalk (buildAdj people rels) s js e →
        is = js ∨ walkLt is js) ∧
    (∀ pid, buildAdj people rels pid =
      (rels.map (fun rel =>
        ((relAdjEntries people rel).filter (fun x => x.1 == pid)).map
          (fun x => x.2))).flatten) ∧
    (∀ rel : StoredRelationship, ∀ fp : Person,
      findPerson people rel.fromPersonId = some fp →
      (findPerson people rel.toPersonId).isSome →
      (relAdjEntries people rel).map (fun x => x.1) =
        [rel.fromPersonId, rel.toPersonId]) :=
  ⟨find_tie_break hne hreach,
   fun pid => (buildAdj_order_chars people rels pid).1,
   fun rel fp hf ht => (buildAdj_order_chars people rels "").2 rel fp hf ht⟩

/-- Witness for C7 (amended) at the counterexample family: Ann and Bob are
adjacent, so the tie-break theorem applies with a concrete one-hop
reachability witness. -/
theorem findRelationshipPath_tie_break_witness :
    (∃ p is, findRelationshipPath "A" "B" cPeople cRels = some p ∧
      IChain cPeople (buildAdj cPeople cRels) p is "A" "B" ∧
      ∀ js, IdxWalk (buildAdj cPeople cRels) "A" js "B" →
        is = js ∨ walkLt is js) ∧
    (∀ pid, buildAdj cPeople cRels pid =
      (cRels.map (fun rel =>
        ((relAdjEntries cPeople rel).filter (fun x => x.1 == pid)).map
          (fun x => x.2))).flatten) ∧
    (∀ rel : StoredRelationship, ∀ fp : Person,
      findPerson cPeople rel.fromPersonId = some fp →
      (findPerson cPeople rel.toPersonId).isSome →
      (relAdjEntries cPeople rel).map (fun x => x.1) =
        [rel.fromPersonId, rel.toPersonId]) :=
  findRelationshipPath_tie_break "A" "B" cPeople cRels (by decide)
    ⟨1, ReachN.step (by decide : Edge (buildAdj cPeople cRels) "A" "B")
      (ReachN.refl "B")⟩

end Family
